import Mathlib

/-!
keepdrawing: the map container, its serializer and the loop of the session.

A shallow embedding of `src/main.go`.

Modelling conventions

* Go `int` and `rune` are `Int`. The code only adds or subtracts small
  constants (display coordinates, one step of the cursor, the offset of a mouse
  report), so no wrap-around is involved.
* Go `byte` is `Nat` (`Byte`); the program only ever stores the six tile
  constants. A Go `string` and a `[]byte` are both `List Byte`; a string literal
  of the source is turned into its UTF-8 bytes by `goBytes`.
* A Go `map` is an association list. The order of the list stands for the order
  in which a `range` loop happens to visit the entries.
* A run-time panic (index out of range, negative length) is `none`.
* The curses window is the list of calls made on it so far.
* A file is the list of its bytes; a write lands at the offset of the open file
  and moves it on. Which write calls return an error is an input.
* The loop of `main` is a step function on its local variables, driven by the
  list of keys that `GetChar` returns.
-/

set_option linter.dupNamespace false

namespace KeepDrawing

/-- Go's `byte`. -/
abbrev Byte := Nat

/-- UTF-8 bytes of a string literal of the source. -/
def goBytes (s : String) : List Byte :=
  s.data.flatMap (fun c => (String.utf8EncodeChar c).map UInt8.toNat)

/-- Go's conversion of a rune constant to a byte. -/
def runeByte (c : Char) : Byte := c.toNat

/-- The basic map tiles. -/
def MAP_NONE : Byte := runeByte ' '
def MAP_ROOM : Byte := runeByte '.'
def MAP_DOOR_CLOSED : Byte := runeByte '#'
def MAP_DOOR_OPEN : Byte := runeByte '='
def MAP_STAIRS_UP : Byte := runeByte '^'
def MAP_STAIRS_DOWN : Byte := runeByte 'v'

/-- The line terminator byte. -/
def NL : Byte := runeByte '\n'

/-- One map (or level). -/
structure Map where
  Level : Int
  Map : List (List Byte)
  Height : Int
  Width : Int
deriving DecidableEq, Repr

/-- Calls on the curses window that `DrawMap` makes; the attribute of `AttrOn`
and `AttrOff` is always `gc.A_REVERSE`. -/
inductive WinCall where
  | Clear
  | Box (vch hch : Int)
  | MovePrint (y x : Int) (s : List Byte)
  | AttrOn
  | AttrOff
  | Refresh
deriving DecidableEq, Repr

/-- The main map container. -/
structure MapContainer where
  points : List (Int × List Byte)
  maps : List (Int × Map)
  curlevel : Int
  win : List WinCall
  height : Int
  width : Int
  cy : Int
  cx : Int
  drawMode : Bool
deriving DecidableEq, Repr

/-- Go's zero value of `Map`, the result of reading an absent key. -/
def zeroMap : Map := { Level := 0, Map := [], Height := 0, Width := 0 }

/-- The map read `m[k]`. -/
def mapsGet (m : List (Int × Map)) (k : Int) : Map :=
  match m.lookup k with
  | some v => v
  | none => zeroMap

/-- The slice read `s[i]`, which panics outside `0 ≤ i < len(s)`. -/
def index {α : Type} (s : List α) (i : Int) : Option α :=
  if i < 0 then none else s[i.toNat]?

/-- The read `mp[cy][cx]`. -/
def index2 (mp : List (List Byte)) (cy cx : Int) : Option Byte :=
  (index mp cy).bind (fun row => index row cx)

/-- The write `mp[cy][cx] = c` on a grid. -/
def setCell (mp : List (List Byte)) (cy cx : Int) (c : Byte) : Option (List (List Byte)) :=
  match index mp cy with
  | none => none
  | some row =>
    match index row cx with
    | none => none
    | some _ => some (mp.set cy.toNat (row.set cx.toNat c))

/-- The grid of the entry with key `k` replaced by `g`: the effect on the map of
a write through the slice header of `m[k].Map`, which shares its rows with the
stored entry. -/
def mapsSetGrid : List (Int × Map) → Int → List (List Byte) → List (Int × Map)
  | [], _, _ => []
  | (k', v) :: rest, k, g =>
    if k' = k then (k', { v with Map := g }) :: rest
    else (k', v) :: mapsSetGrid rest k g

/-- The statement `mc.maps[mc.curlevel].Map[mc.cy][mc.cx] = c`. -/
def MapContainer.setTile (mc : MapContainer) (c : Byte) : Option MapContainer :=
  match setCell (mapsGet mc.maps mc.curlevel).Map mc.cy mc.cx c with
  | none => none
  | some g => some { mc with maps := mapsSetGrid mc.maps mc.curlevel g }

/-- Go's `string(b)` for a byte `b`: the UTF-8 encoding of the code point `b`. -/
def byteString (b : Byte) : List Byte := goBytes (String.singleton (Char.ofNat b))

/-- The calls `mc.win.MovePrint(i+1, 1, string(mp[i]))` for the rows from index `i` on. -/
def printRows : List (List Byte) → Int → List WinCall
  | [], _ => []
  | row :: rest, i => WinCall.MovePrint (i + 1) 1 row :: printRows rest (i + 1)

/-- The redraw: the frame, every row of the current level, the cell under the
cursor in reverse video, and a refresh. Reading the cell under the cursor
panics when the grid has no such cell. -/
def MapContainer.DrawMap (mc : MapContainer) : Option MapContainer :=
  let mp := (mapsGet mc.maps mc.curlevel).Map
  match index2 mp mc.cy mc.cx with
  | none => none
  | some t =>
    some { mc with win := mc.win ++ [WinCall.Clear, WinCall.Box 0 0] ++ printRows mp 0 ++
      [WinCall.AttrOn, WinCall.MovePrint (mc.cy + 1) (mc.cx + 1) (byteString t),
       WinCall.AttrOff, WinCall.Refresh] }

/-- The result is the container after the call and the two returned values. -/
def MapContainer.MoveCursor (mc : MapContainer) (cy cx : Int) :
    Option (MapContainer × Int × Int) :=
  if cy < 0 ∨ cy ≥ mc.height ∨ cx < 0 ∨ cx ≥ mc.width then
    some (mc, mc.cy, mc.cx)
  else
    let mc1 := { mc with cy := cy, cx := cx }
    match (if mc1.drawMode then mc1.setTile MAP_ROOM else some mc1) with
    | none => none
    | some mc2 =>
      match mc2.DrawMap with
      | none => none
      | some mc3 => some (mc3, mc3.cy, mc3.cx)

def MapContainer.CursorPosition (mc : MapContainer) : Int × Int := (mc.cy, mc.cx)

def MapContainer.SetDrawMode (mc : MapContainer) : MapContainer :=
  { mc with drawMode := !mc.drawMode }

def MapContainer.DrawMode (mc : MapContainer) : Bool := mc.drawMode

def MapContainer.CurrentLevel (mc : MapContainer) : Int := mc.curlevel

/-- The stairs toggle on the tile under the cursor. -/
def MapContainer.PlaceStairs (mc : MapContainer) : Option MapContainer :=
  let mp := (mapsGet mc.maps mc.curlevel).Map
  match index2 mp mc.cy mc.cx with
  | none => none
  | some t =>
    let c : Byte :=
      if t = MAP_STAIRS_DOWN then MAP_STAIRS_UP
      else if t = MAP_STAIRS_UP then MAP_ROOM
      else MAP_STAIRS_DOWN
    match mc.setTile c with
    | none => none
    | some mc1 => mc1.DrawMap

/-- The door toggle on the tile under the cursor. -/
def MapContainer.PlaceDoor (mc : MapContainer) : Option MapContainer :=
  let mp := (mapsGet mc.maps mc.curlevel).Map
  match index2 mp mc.cy mc.cx with
  | none => none
  | some t =>
    let c : Byte :=
      if t = MAP_DOOR_CLOSED then MAP_DOOR_OPEN
      else if t = MAP_DOOR_OPEN then MAP_ROOM
      else MAP_DOOR_CLOSED
    match mc.setTile c with
    | none => none
    | some mc1 => mc1.DrawMap

/-- The constructor. `make([][]byte, height)` panics on a negative length, and
`strings.Repeat` on a negative count; the latter is only called when the loop
runs. The window starts with no call made on it. -/
def NewMapContainer (height width : Int) : Option MapContainer :=
  if height < 0 then none
  else if 0 < height ∧ width < 0 then none
  else
    let curlevelmap : List (List Byte) :=
      List.replicate height.toNat (List.replicate width.toNat (runeByte ' '))
    let curlevel : Int := 1
    some {
      points := []
      maps := [(curlevel, { Level := curlevel, Map := curlevelmap, Height := height, Width := width })]
      curlevel := curlevel
      win := []
      height := height
      width := width
      cy := 0
      cx := 0
      drawMode := false }

/-- The calls a session makes on the container that change it. `WriteToFile`,
`CursorPosition`, `DrawMode` and `CurrentLevel` only read it. -/
inductive Op where
  | MoveCursor (cy cx : Int)
  | SetDrawMode
  | PlaceStairs
  | PlaceDoor
  | DrawMap
deriving DecidableEq, Repr

/-- One call on the container. -/
def step (mc : MapContainer) : Op → Option MapContainer
  | Op.MoveCursor cy cx => (mc.MoveCursor cy cx).map Prod.fst
  | Op.SetDrawMode => some mc.SetDrawMode
  | Op.PlaceStairs => mc.PlaceStairs
  | Op.PlaceDoor => mc.PlaceDoor
  | Op.DrawMap => mc.DrawMap

/-- The calls of a list, in order; a panic ends the run. -/
def run (mc : MapContainer) : List Op → Option MapContainer
  | [] => some mc
  | op :: ops => (step mc op).bind (fun mc1 => run mc1 ops)

/-- The container that `NewMapContainer(height, width, win)` returns, after the
calls `ops` in order. -/
def reach (height width : Int) (ops : List Op) : Option MapContainer :=
  (NewMapContainer height width).bind (fun mc => run mc ops)

/-- The tile under the cursor on the current level. -/
def MapContainer.cursorTile (mc : MapContainer) : Option Byte :=
  index2 (mapsGet mc.maps mc.curlevel).Map mc.cy mc.cx

/-- The tile at `(row, col)` on the current level. -/
def MapContainer.tileAt (mc : MapContainer) (row col : Int) : Option Byte :=
  index2 (mapsGet mc.maps mc.curlevel).Map row col

/-- An operand of `fmt.Sprintf`, by its Go type. -/
inductive Operand where
  | int (i : Int)
  | rune (r : Int)
  | string (s : List Byte)

/-- The verb `%s` of package fmt: a string is copied, an integer operand is
reported as a bad verb together with its type and value. -/
def verbS : Operand → List Byte
  | Operand.string s => s
  | Operand.int i => goBytes ("%!s(int=" ++ toString i ++ ")")
  | Operand.rune r => goBytes ("%!s(int32=" ++ toString r ++ ")")

/-- The verb `%d` of package fmt: an integer in decimal. -/
def verbD : Operand → List Byte
  | Operand.int i => goBytes (toString i)
  | Operand.rune r => goBytes (toString r)
  | Operand.string s => goBytes "%!d(string=" ++ s ++ goBytes ")"

/-- The order of `MapSort`: `Less(i, j)` of the source, stated on the elements
`ms[i]` and `ms[j]`. -/
def MapSort.Less (a b : Map) : Bool := a.Level < b.Level

/-- One pass of the inner loop of an insertion sort, on the reversed sorted
prefix: `x` moves left while it is less than its left neighbour. -/
def MapSort.sink (x : Map) : List Map → List Map
  | [] => [x]
  | y :: ys => if MapSort.Less x y then y :: MapSort.sink x ys else x :: y :: ys

/-- The call `sort.Sort(m)` of the Go library on a `MapSort`: the insertion sort
that it runs on a slice of at most 12 elements. On a longer slice it runs an
unstable sort, whose result is the same whenever no two elements compare
equal. -/
def MapSort.Sort (m : List Map) : List Map :=
  (m.foldl (fun acc x => MapSort.sink x acc) []).reverse

/-- The writes of one round of the loop over the sorted levels. -/
def writeLevel (mp : Map) : List Byte :=
  (goBytes "Level " ++ verbD (Operand.int mp.Level) ++ goBytes "\n") ++
  (verbD (Operand.int mp.Width) ++ goBytes " Ã— " ++ verbD (Operand.int mp.Height) ++ goBytes "\n") ++
  mp.Map.flatMap (fun line => line ++ goBytes "\n") ++
  goBytes "\n"

/-- The writes of the loop over the points of interest. -/
def writePoints (points : List (Int × List Byte)) : List Byte :=
  points.flatMap (fun ps =>
    verbS (Operand.rune ps.1) ++ goBytes ": " ++ verbS (Operand.string ps.2) ++ goBytes "\n")

/-- The levels in the order in which `WriteToFile` writes them. -/
def MapContainer.sortedLevels (mc : MapContainer) : List Map :=
  MapSort.Sort (mc.maps.map Prod.snd)

/-- The bytes that `WriteToFile` writes to the file, in order from offset 0,
when the file opens and no write fails. -/
def MapContainer.WriteToFile (mc : MapContainer) : List Byte :=
  writePoints mc.points ++ goBytes "\n" ++ mc.sortedLevels.flatMap writeLevel

/-- The lines of a byte stream: the runs of bytes up to each line terminator,
and the rest after the last one when it is not empty. -/
def lines : List Byte → List (List Byte)
  | [] => []
  | b :: bs =>
    if b = NL then [] :: lines bs
    else
      match lines bs with
      | [] => [[b]]
      | l :: ls => (b :: l) :: ls

/-- The six tile codes. -/
def isTile (b : Byte) : Prop :=
  b = MAP_NONE ∨ b = MAP_ROOM ∨ b = MAP_DOOR_CLOSED ∨ b = MAP_DOOR_OPEN ∨
    b = MAP_STAIRS_UP ∨ b = MAP_STAIRS_DOWN

/-- What holds of the container of `NewMapContainer(h, w)` after any calls: one
level with key and id 1, a grid of `h` rows of `w` tile codes, the window size
of the container equal to the size of the level, the cursor on the grid. -/
structure Inv (h w : Int) (mc : MapContainer) : Prop where
  hpos : 0 < h
  wpos : 0 < w
  points : mc.points = []
  curlevel : mc.curlevel = 1
  grid : ∃ g : List (List Byte),
    mc.maps = [(1, { Level := 1, Map := g, Height := h, Width := w })] ∧
    g.length = h.toNat ∧ (∀ row ∈ g, row.length = w.toNat) ∧
    (∀ row ∈ g, ∀ b ∈ row, isTile b)
  height : mc.height = h
  width : mc.width = w
  cy : 0 ≤ mc.cy ∧ mc.cy < h
  cx : 0 ≤ mc.cx ∧ mc.cx < w

/-- The characters of a decimal numeral. -/
def decimalChars : List Char := ['0', '1', '2', '3', '4', '5', '6', '7', '8', '9', '-']

/-- The container of `NewMapContainer(2, 3)` with the one point of interest
`'a'` labelled "Treasure". -/
def treasureContainer : Option MapContainer :=
  (NewMapContainer 2 3).map (fun mc =>
    { mc with points := [((runeByte 'a' : Nat), goBytes "Treasure")] })

/-- A level of the given id with a one by one grid holding `NONE`. -/
def unitLevel (level : Int) : Map :=
  { Level := level, Map := [[MAP_NONE]], Height := 1, Width := 1 }

/-- A container whose level map is visited in the order 3, 1, 2. -/
def threeLevels : MapContainer :=
  { points := []
    maps := [(3, unitLevel 3), (1, unitLevel 1), (2, unitLevel 2)]
    curlevel := 1
    win := []
    height := 1
    width := 1
    cy := 0
    cx := 0
    drawMode := false }

/-- The number of redraws that a window has seen: every `DrawMap` ends with one
`Refresh`, and nothing else calls it. -/
def redrawCount (win : List WinCall) : Nat := win.count WinCall.Refresh

/-- The grid shape of a container of `NewMapContainer(h, w)`: one level with key
and id 1 whose `Height` and `Width` are `h` and `w` and count the rows of the
grid and the bytes of each row, and the container's own `height` and `width`
equal to them. -/
structure Shape (h w : Int) (mc : MapContainer) : Prop where
  curlevel : mc.curlevel = 1
  grid : ∃ g : List (List Byte),
    mc.maps = [(1, { Level := 1, Map := g, Height := h, Width := w })] ∧
    (g.length : Int) = h ∧ ∀ row ∈ g, (row.length : Int) = w
  height : mc.height = h
  width : mc.width = w

/-- A write of `data` at `offset` into a file that holds `content`: the bytes
under the write are replaced, the bytes after it stay. -/
def writeAt (content : List Byte) (offset : Nat) (data : List Byte) : List Byte :=
  content.take offset ++ data ++ content.drop (offset + data.length)

/-- One write call of `WriteToFile`: its bytes, and whether the source tests the
error that the call returns. -/
structure WriteCall where
  data : List Byte
  checked : Bool
deriving DecidableEq, Repr

/-- The write call for one point of interest; its error is tested. -/
def pointCall (ps : Int × List Byte) : WriteCall :=
  { data := verbS (Operand.rune ps.1) ++ goBytes ": " ++ verbS (Operand.string ps.2) ++
      goBytes "\n",
    checked := true }

/-- The two write calls for one row of a grid; their errors are not tested. -/
def rowCalls (line : List Byte) : List WriteCall :=
  [{ data := line, checked := false }, { data := goBytes "\n", checked := false }]

/-- The write calls of one round of the loop over the sorted levels; none of
them has its error tested. -/
def levelCalls (mp : Map) : List WriteCall :=
  [{ data := goBytes "Level " ++ verbD (Operand.int mp.Level) ++ goBytes "\n", checked := false },
   { data := verbD (Operand.int mp.Width) ++ goBytes " Ã— " ++ verbD (Operand.int mp.Height) ++
       goBytes "\n", checked := false }] ++
  mp.Map.flatMap rowCalls ++
  [{ data := goBytes "\n", checked := false }]

/-- The write calls of `WriteToFile`, in order: one per point, with its error
tested, then the separator and the calls of the levels, with no test. -/
def MapContainer.writeCalls (mc : MapContainer) : List WriteCall :=
  mc.points.map pointCall ++
  [{ data := goBytes "\n", checked := false }] ++
  mc.sortedLevels.flatMap levelCalls

/-- How a call of `WriteToFile` ends, with the content of the file then (`none`
when there is no file): `log.Fatal` ends the process, otherwise the call
returns. -/
inductive SaveOutcome where
  | fatal (disk : Option (List Byte))
  | returned (disk : List Byte)
deriving DecidableEq, Repr

/-- The write calls from the one with number `i` on. `fails i` tells whether
call `i` returns an error; such a call is taken to leave the file and the
offset as they are. A tested error is fatal, an untested one is dropped and
the next call is made. -/
def performWrites : List WriteCall → (Nat → Bool) → Nat → List Byte → Nat → SaveOutcome
  | [], _, _, content, _ => SaveOutcome.returned content
  | c :: cs, fails, i, content, offset =>
    if fails i then
      if c.checked then SaveOutcome.fatal (some content)
      else performWrites cs fails (i + 1) content offset
    else performWrites cs fails (i + 1) (writeAt content offset c.data) (offset + c.data.length)

/-- The call `WriteToFile(filename)` on a disk where the file holds `prior`
(`none` when it does not exist). `os.OpenFile` is called with
`os.O_RDWR|os.O_CREATE`: an existing file is opened as it is, with the offset at
0; a failure to open is fatal. -/
def MapContainer.WriteToFileOn (mc : MapContainer) (prior : Option (List Byte))
    (openFails : Bool) (fails : Nat → Bool) : SaveOutcome :=
  if openFails then SaveOutcome.fatal prior
  else performWrites mc.writeCalls fails 0 (prior.getD []) 0

/-- The state of a mouse report as far as the loop tests it: equal to
`gc.M_B1_PRESSED`, equal to `gc.M_B1_RELEASED`, or neither. -/
inductive MouseState where
  | M_B1_PRESSED
  | M_B1_RELEASED
  | other
deriving DecidableEq, Repr

/-- The fields of a mouse report that the loop reads. -/
structure MouseEvent where
  State : MouseState
  X : Int
  Y : Int
deriving DecidableEq, Repr

/-- The value of `win.GetChar()`, by the case of the `switch` that it selects;
`KEY_MOUSE` comes with the result of `gc.GetMouse()`, `none` for `nil`. -/
inductive Key where
  | q
  | s
  | r
  | t
  | d
  | KEY_UP
  | KEY_DOWN
  | KEY_LEFT
  | KEY_RIGHT
  | KEY_MOUSE (md : Option MouseEvent)
  | other
deriving DecidableEq, Repr

/-- The variables of the loop of `main`: the container `m`, the local cursor
`cy`, `cx` and `mMoving`; `moves` lists the arguments of the calls of
`MoveCursor` that the loop has made. -/
structure Session where
  m : MapContainer
  cy : Int
  cx : Int
  mMoving : Bool
  moves : List (Int × Int)
deriving DecidableEq, Repr

/-- The start of `main` on a screen of `rows` by `cols`, up to the first
`DrawMap`. The menu bar on `stdscr` is left out, and `gc.Init` and
`gc.NewWindow` are taken to succeed. -/
def sessionStart (rows cols : Int) : Option Session :=
  let height := rows - 4
  let width := cols
  match NewMapContainer (height - 2) (width - 2) with
  | none => none
  | some m =>
    match m.DrawMap with
    | none => none
    | some m1 =>
      some { m := m1, cy := m.CursorPosition.1, cx := m.CursorPosition.2, mMoving := false,
             moves := [] }

/-- The statement `cy, cx = m.MoveCursor(cy, cx)` of the loop. -/
def Session.moveCursor (s : Session) (cy cx : Int) (mMoving : Bool) : Option Session :=
  match s.m.MoveCursor cy cx with
  | none => none
  | some (m1, cy1, cx1) =>
    some { m := m1, cy := cy1, cx := cx1, mMoving := mMoving, moves := s.moves ++ [(cy, cx)] }

/-- One round of the loop of `main` for a key other than `q`, which leaves the
loop. The save of `s` does not change the variables of the loop. -/
def sessionStep (s : Session) : Key → Option Session
  | Key.q => some s
  | Key.s => some s
  | Key.r => some { s with m := s.m.SetDrawMode }
  | Key.t => (s.m.PlaceStairs).map (fun m1 => { s with m := m1 })
  | Key.d => (s.m.PlaceDoor).map (fun m1 => { s with m := m1 })
  | Key.KEY_UP => s.moveCursor (s.cy - 1) s.cx s.mMoving
  | Key.KEY_DOWN => s.moveCursor (s.cy + 1) s.cx s.mMoving
  | Key.KEY_LEFT => s.moveCursor s.cy (s.cx - 1) s.mMoving
  | Key.KEY_RIGHT => s.moveCursor s.cy (s.cx + 1) s.mMoving
  | Key.KEY_MOUSE none => some s
  | Key.KEY_MOUSE (some md) =>
    let mMoving1 := if md.State = MouseState.M_B1_PRESSED then true else s.mMoving
    let mMoving2 :=
      if md.State = MouseState.M_B1_RELEASED ∧ mMoving1 = true then false else mMoving1
    if mMoving2 = true then
      let cy := md.Y - 2
      let cx := md.X
      s.moveCursor (cy - 1) (cx - 1) mMoving2
    else some { s with mMoving := mMoving2 }
  | Key.other => some s

/-- The loop of `main` on the keys that `GetChar` returns, up to the first `q`. -/
def sessionRun (s : Session) : List Key → Option Session
  | [] => some s
  | k :: ks =>
    if k = Key.q then some s
    else (sessionStep s k).bind (fun s1 => sessionRun s1 ks)

/-- The mouse reports among the keys, in order. -/
def pointerEvents : List Key → List MouseEvent
  | [] => []
  | Key.KEY_MOUSE (some md) :: ks => md :: pointerEvents ks
  | _ :: ks => pointerEvents ks

/-- The words of the specification on a drag: among the mouse reports so far
there is a press with no release after it. -/
def pressActive (evs : List MouseEvent) : Prop :=
  ∃ pre post p, evs = pre ++ p :: post ∧ p.State = MouseState.M_B1_PRESSED ∧
    ∀ e ∈ post, e.State ≠ MouseState.M_B1_RELEASED

/-- The words of the specification on a move: the cursor goes to `(row, col)`
when that cell is on the current level, and stays where it is otherwise. -/
def MapContainer.clampedTo (mc : MapContainer) (row col : Int) : Int × Int :=
  if 0 ≤ row ∧ row < (mapsGet mc.maps mc.curlevel).Height ∧
      0 ≤ col ∧ col < (mapsGet mc.maps mc.curlevel).Width then (row, col)
  else (mc.cy, mc.cx)

/-- Whether the call ended in `log.Fatal`. -/
def SaveOutcome.isFatal : SaveOutcome → Bool
  | SaveOutcome.fatal _ => true
  | SaveOutcome.returned _ => false

/-- What holds of the variables of the loop of `main` on a window whose
container is `h` by `w`: the container is well formed and the local cursor is
the cursor of the container. -/
structure SInv (h w : Int) (s : Session) : Prop where
  inv : Inv h w s.m
  cy : s.cy = s.m.cy
  cx : s.cx = s.m.cx

/-- The loop of `main` from its start on a screen of `rows` by `cols`. -/
def session (rows cols : Int) (keys : List Key) : Option Session :=
  (sessionStart rows cols).bind (fun s => sessionRun s keys)

/-! ## Slices, grids and the level map -/

theorem index_eq_some_iff {α : Type} (s : List α) (i : Int) (a : α) :
    index s i = some a ↔ 0 ≤ i ∧ s[i.toNat]? = some a := by
  unfold index
  by_cases h : i < 0
  · simp [h]
  · simp only [h, if_false]
    constructor
    · intro e
      exact ⟨by omega, e⟩
    · intro e
      exact e.2

theorem index_of_lt {α : Type} (s : List α) (i : Int) (h0 : 0 ≤ i) (h1 : i.toNat < s.length) :
    index s i = some (s.get ⟨i.toNat, h1⟩) := by
  rw [index_eq_some_iff]
  exact ⟨h0, by simp [List.getElem?_eq_getElem h1]⟩

theorem index_set_self {α : Type} (s : List α) (i : Int) (a b : α) (h : index s i = some a) :
    index (s.set i.toNat b) i = some b := by
  rw [index_eq_some_iff] at h ⊢
  refine ⟨h.1, ?_⟩
  have hlt : i.toNat < s.length := by
    rcases List.getElem?_eq_some_iff.1 h.2 with ⟨hlt, _⟩
    exact hlt
  simp [List.getElem?_set, hlt]

theorem index_set_ne {α : Type} (s : List α) (i j : Int) (b : α) (h0 : 0 ≤ i) (hij : i ≠ j) :
    index (s.set i.toNat b) j = index s j := by
  unfold index
  by_cases hj : j < 0
  · simp [hj]
  · simp only [hj, if_false]
    have : i.toNat ≠ j.toNat := by omega
    simp [List.getElem?_set, this]

theorem index2_setCell (mp : List (List Byte)) (cy cx : Int) (c t : Byte)
    (h : index2 mp cy cx = some t) :
    ∃ g, setCell mp cy cx c = some g ∧ g.length = mp.length ∧
      (∀ r k, index2 g r k = if r = cy ∧ k = cx then some c else index2 mp r k) ∧
      (∀ n, ∀ row ∈ g, (∀ row0 ∈ mp, row0.length = n) → row.length = n) ∧
      (∀ P : Byte → Prop, P c → (∀ row0 ∈ mp, ∀ b ∈ row0, P b) → ∀ row ∈ g, ∀ b ∈ row, P b) := by
  unfold index2 at h
  cases hrow : index mp cy with
  | none => simp [hrow] at h
  | some row =>
    simp [hrow] at h
    have hcy := (index_eq_some_iff _ _ _).1 hrow
    have hcx := (index_eq_some_iff _ _ _).1 h
    refine ⟨mp.set cy.toNat (row.set cx.toNat c), by simp [setCell, hrow, h], by simp, ?_, ?_, ?_⟩
    · intro r k
      unfold index2
      by_cases hr : r = cy
      · subst hr
        rw [index_set_self mp r row _ hrow]
        by_cases hk : k = cx
        · subst hk
          simp [index_set_self row k t c h]
        · have hk' : cx ≠ k := fun e => hk e.symm
          simp [hk, hrow, index_set_ne row cx k c hcx.1 hk']
      · have hr' : cy ≠ r := fun e => hr e.symm
        simp [hr, index_set_ne mp cy r _ hcy.1 hr']
    · intro n row1 hmem hall
      rcases List.mem_or_eq_of_mem_set hmem with h1 | h1
      · exact hall _ h1
      · subst h1
        have : row ∈ mp := List.getElem?_mem hcy.2
        simpa using hall _ this
    · intro P hc hall row1 hmem b hb
      rcases List.mem_or_eq_of_mem_set hmem with h1 | h1
      · exact hall _ h1 _ hb
      · subst h1
        have hrm : row ∈ mp := List.getElem?_mem hcy.2
        rcases List.mem_or_eq_of_mem_set hb with h2 | h2
        · exact hall _ hrm _ h2
        · exact h2 ▸ hc

theorem index2_of_bounds (g : List (List Byte)) (h w : Int)
    (hlen : g.length = h.toNat) (hrow : ∀ row ∈ g, row.length = w.toNat)
    (r k : Int) (hr0 : 0 ≤ r) (hr1 : r < h) (hk0 : 0 ≤ k) (hk1 : k < w) :
    ∃ row t, index g r = some row ∧ row ∈ g ∧ index row k = some t ∧ t ∈ row ∧
      index2 g r k = some t := by
  have h1 : r.toNat < g.length := by omega
  have e1 := index_of_lt g r hr0 h1
  have hm : g.get ⟨r.toNat, h1⟩ ∈ g := List.get_mem _ _ _
  have h2 : k.toNat < (g.get ⟨r.toNat, h1⟩).length := by
    rw [hrow _ hm]
    omega
  have e2 := index_of_lt (g.get ⟨r.toNat, h1⟩) k hk0 h2
  exact ⟨_, _, e1, hm, e2, List.get_mem _ _ _, by rw [index2, e1, Option.some_bind]; exact e2⟩

theorem mapsGet_single (v : Map) : mapsGet [((1 : Int), v)] 1 = v := by
  simp [mapsGet, List.lookup]

theorem mapsSetGrid_single (v : Map) (g : List (List Byte)) :
    mapsSetGrid [((1 : Int), v)] 1 g = [((1 : Int), { v with Map := g })] := by
  simp [mapsSetGrid]

theorem Inv.tileAt {h w : Int} {mc : MapContainer} (hi : Inv h w mc) (r k : Int)
    (hr0 : 0 ≤ r) (hr1 : r < h) (hk0 : 0 ≤ k) (hk1 : k < w) :
    ∃ t, mc.tileAt r k = some t ∧ isTile t := by
  obtain ⟨g, hm, hlen, hcols, htiles⟩ := hi.grid
  obtain ⟨row, t, _, hrow, _, ht, e⟩ := index2_of_bounds g h w hlen hcols r k hr0 hr1 hk0 hk1
  exact ⟨t, by simp [MapContainer.tileAt, hm, hi.curlevel, mapsGet_single, e], htiles _ hrow _ ht⟩

theorem Inv.cursorTile {h w : Int} {mc : MapContainer} (hi : Inv h w mc) :
    ∃ t, mc.cursorTile = some t ∧ isTile t :=
  hi.tileAt mc.cy mc.cx hi.cy.1 hi.cy.2 hi.cx.1 hi.cx.2

/-- A draw succeeds when there is a tile under the cursor, and only adds calls to the window. -/
theorem DrawMap_of_cursorTile (mc : MapContainer) (t : Byte) (h : mc.cursorTile = some t) :
    ∃ calls, mc.DrawMap = some { mc with win := mc.win ++ calls } ∧ calls ≠ [] := by
  unfold MapContainer.cursorTile at h
  refine ⟨[WinCall.Clear, WinCall.Box 0 0] ++ printRows (mapsGet mc.maps mc.curlevel).Map 0 ++
      [WinCall.AttrOn, WinCall.MovePrint (mc.cy + 1) (mc.cx + 1) (byteString t),
       WinCall.AttrOff, WinCall.Refresh], ?_, by simp⟩
  simp [MapContainer.DrawMap, h, List.append_assoc]

theorem Inv.of_win {h w : Int} {mc : MapContainer} (hi : Inv h w mc) (win : List WinCall) :
    Inv h w { mc with win := win } :=
  ⟨hi.hpos, hi.wpos, hi.points, hi.curlevel, hi.grid, hi.height, hi.width, hi.cy, hi.cx⟩

theorem Inv.DrawMap {h w : Int} {mc : MapContainer} (hi : Inv h w mc) :
    ∃ mc1, mc.DrawMap = some mc1 ∧ Inv h w mc1 ∧ mc1.maps = mc.maps ∧ mc1.cy = mc.cy ∧
      mc1.cx = mc.cx ∧ mc1.drawMode = mc.drawMode ∧ mc1.curlevel = mc.curlevel := by
  obtain ⟨t, ht, _⟩ := hi.cursorTile
  obtain ⟨calls, hc, _⟩ := DrawMap_of_cursorTile mc t ht
  exact ⟨_, hc, hi.of_win _, rfl, rfl, rfl, rfl, rfl⟩

/-- The write of a tile code under the cursor. -/
theorem Inv.setTile {h w : Int} {mc : MapContainer} (hi : Inv h w mc) (c : Byte) (hc : isTile c) :
    ∃ mc1, mc.setTile c = some mc1 ∧ Inv h w mc1 ∧ mc1.cy = mc.cy ∧ mc1.cx = mc.cx ∧
      mc1.drawMode = mc.drawMode ∧ mc1.win = mc.win ∧
      ∀ r k, mc1.tileAt r k = if r = mc.cy ∧ k = mc.cx then some c else mc.tileAt r k := by
  obtain ⟨g, hm, hlen, hcols, htiles⟩ := hi.grid
  obtain ⟨t, ht, _⟩ := hi.cursorTile
  have ht2 : index2 g mc.cy mc.cx = some t := by
    simpa [MapContainer.cursorTile, hm, hi.curlevel, mapsGet_single] using ht
  obtain ⟨g1, hs, hl1, hpt, hc1, ht1⟩ := index2_setCell g mc.cy mc.cx c t ht2
  refine ⟨{ mc with maps := [(1, { Level := 1, Map := g1, Height := h, Width := w })] }, ?_, ?_,
    rfl, rfl, rfl, rfl, ?_⟩
  · simp [MapContainer.setTile, hm, hi.curlevel, mapsGet_single, mapsSetGrid_single, hs]
  · exact ⟨hi.hpos, hi.wpos, hi.points, hi.curlevel,
      ⟨g1, rfl, by omega, fun row hr => hc1 _ row hr hcols,
        fun row hr b hb => ht1 isTile hc htiles row hr b hb⟩,
      hi.height, hi.width, hi.cy, hi.cx⟩
  · intro r k
    simp [MapContainer.tileAt, hm, hi.curlevel, mapsGet_single, hpt]

/-! ## The operations keep the container well formed -/

theorem isTile_room : isTile MAP_ROOM := Or.inr (Or.inl rfl)

theorem inv_new (h w : Int) (hh : 0 < h) (hw : 0 < w) :
    ∃ mc, NewMapContainer h w = some mc ∧ Inv h w mc ∧ mc.cy = 0 ∧ mc.cx = 0 ∧
      mc.drawMode = false ∧ ∀ r k t, mc.tileAt r k = some t → t = MAP_NONE := by
  have h1 : ¬ h < 0 := by omega
  have h2 : ¬ (0 < h ∧ w < 0) := by omega
  refine ⟨_, by simp only [NewMapContainer, h1, h2, if_false]; rfl, ?_, rfl, rfl, rfl, ?_⟩
  · refine ⟨hh, hw, rfl, rfl, ⟨_, rfl, by simp, ?_, ?_⟩, rfl, rfl, ⟨le_refl _, hh⟩, ⟨le_refl _, hw⟩⟩
    · intro row hr
      rw [List.eq_of_mem_replicate hr]
      simp
    · intro row hr b hb
      rw [List.eq_of_mem_replicate hr] at hb
      rw [List.eq_of_mem_replicate hb]
      exact Or.inl rfl
  · intro r k t ht
    simp only [MapContainer.tileAt, mapsGet_single, index2] at ht
    rcases Option.bind_eq_some.1 ht with ⟨row, e1, e2⟩
    have m1 := List.getElem?_mem ((index_eq_some_iff _ _ _).1 e1).2
    rw [List.eq_of_mem_replicate m1] at e2
    have m2 := List.getElem?_mem ((index_eq_some_iff _ _ _).1 e2).2
    exact List.eq_of_mem_replicate m2

theorem Inv.SetDrawMode {h w : Int} {mc : MapContainer} (hi : Inv h w mc) :
    Inv h w mc.SetDrawMode :=
  ⟨hi.hpos, hi.wpos, hi.points, hi.curlevel, hi.grid, hi.height, hi.width, hi.cy, hi.cx⟩

theorem Inv.moved {h w : Int} {mc : MapContainer} (hi : Inv h w mc) (cy cx : Int)
    (h0 : 0 ≤ cy) (h1 : cy < h) (k0 : 0 ≤ cx) (k1 : cx < w) :
    Inv h w { mc with cy := cy, cx := cx } :=
  ⟨hi.hpos, hi.wpos, hi.points, hi.curlevel, hi.grid, hi.height, hi.width, ⟨h0, h1⟩, ⟨k0, k1⟩⟩

theorem tileAt_congr (a b : MapContainer) (hm : a.maps = b.maps) (hc : a.curlevel = b.curlevel)
    (r k : Int) : a.tileAt r k = b.tileAt r k := by
  simp [MapContainer.tileAt, hm, hc]

theorem cursorTile_eq_tileAt (mc : MapContainer) : mc.cursorTile = mc.tileAt mc.cy mc.cx := rfl

/-- A move to a cell of the grid. -/
theorem Inv.MoveCursor_in {h w : Int} {mc : MapContainer} (hi : Inv h w mc) (cy cx : Int)
    (h0 : 0 ≤ cy) (h1 : cy < h) (k0 : 0 ≤ cx) (k1 : cx < w) :
    ∃ mc1, mc.MoveCursor cy cx = some (mc1, cy, cx) ∧ Inv h w mc1 ∧ mc1.cy = cy ∧ mc1.cx = cx ∧
      mc1.drawMode = mc.drawMode ∧
      ∀ r k, mc1.tileAt r k =
        if mc.drawMode = true ∧ r = cy ∧ k = cx then some MAP_ROOM else mc.tileAt r k := by
  have hcond : ¬ (cy < 0 ∨ cy ≥ mc.height ∨ cx < 0 ∨ cx ≥ mc.width) := by
    rw [hi.height, hi.width]
    omega
  have hi0 := hi.moved cy cx h0 h1 k0 k1
  by_cases hd : mc.drawMode = true
  case neg =>
    obtain ⟨mc3, e3, i3, m3, y3, x3, d3, c3⟩ := hi0.DrawMap
    refine ⟨mc3, ?_, i3, y3, x3, d3, ?_⟩
    · unfold MapContainer.MoveCursor
      rw [if_neg hcond]
      simp only []
      rw [if_neg (by simp [hd])]
      simp only [e3, y3, x3]
    · intro r k
      rw [tileAt_congr mc3 _ m3 c3]
      simp [MapContainer.tileAt, hd]
  case pos =>
    obtain ⟨mc2, e2, i2, y2, x2, d2, _, t2⟩ := hi0.setTile MAP_ROOM isTile_room
    obtain ⟨mc3, e3, i3, m3, y3, x3, d3, c3⟩ := i2.DrawMap
    refine ⟨mc3, ?_, i3, y3.trans y2, x3.trans x2, d3.trans d2, ?_⟩
    · unfold MapContainer.MoveCursor
      rw [if_neg hcond]
      simp only []
      rw [if_pos (by simp [hd]), e2]
      simp only [e3, y3, x3, y2, x2]
    · intro r k
      rw [tileAt_congr mc3 _ m3 c3, t2]
      simp [MapContainer.tileAt, hd]

/-- A move is a call that returns, and the container stays well formed. -/
theorem Inv.MoveCursor {h w : Int} {mc : MapContainer} (hi : Inv h w mc) (cy cx : Int) :
    ∃ res, mc.MoveCursor cy cx = some res ∧ Inv h w res.1 := by
  by_cases hcond : cy < 0 ∨ cy ≥ mc.height ∨ cx < 0 ∨ cx ≥ mc.width
  · exact ⟨(mc, mc.cy, mc.cx), by simp only [MapContainer.MoveCursor, hcond, if_true], hi⟩
  · rw [hi.height, hi.width] at hcond
    obtain ⟨mc1, e, i1, _⟩ := hi.MoveCursor_in cy cx (by omega) (by omega) (by omega) (by omega)
    exact ⟨_, e, i1⟩

/-- The write of a tile code under the cursor followed by a draw, the common
tail of `PlaceStairs` and `PlaceDoor`. -/
theorem Inv.place {h w : Int} {mc : MapContainer} (hi : Inv h w mc) (c : Byte) (hc : isTile c) :
    ∃ mc1, (match mc.setTile c with
        | none => none
        | some m => m.DrawMap) = some mc1 ∧ Inv h w mc1 ∧ mc1.cy = mc.cy ∧ mc1.cx = mc.cx ∧
      mc1.drawMode = mc.drawMode ∧ mc1.points = mc.points ∧
      ∀ r k, mc1.tileAt r k = if r = mc.cy ∧ k = mc.cx then some c else mc.tileAt r k := by
  obtain ⟨mc2, e2, i2, y2, x2, d2, _, t2⟩ := hi.setTile c hc
  obtain ⟨mc3, e3, i3, m3, y3, x3, d3, c3⟩ := i2.DrawMap
  refine ⟨mc3, by simp only [e2, e3], i3, y3.trans y2, x3.trans x2, d3.trans d2, ?_, ?_⟩
  · rw [i3.points, hi.points]
  · intro r k
    rw [tileAt_congr mc3 _ m3 c3, t2]

theorem Inv.PlaceStairs {h w : Int} {mc : MapContainer} (hi : Inv h w mc) (t : Byte)
    (ht : mc.cursorTile = some t) :
    ∃ mc1, mc.PlaceStairs = some mc1 ∧ Inv h w mc1 ∧ mc1.cy = mc.cy ∧ mc1.cx = mc.cx ∧
      mc1.drawMode = mc.drawMode ∧
      ∀ r k, mc1.tileAt r k =
        if r = mc.cy ∧ k = mc.cx then
          some (if t = MAP_STAIRS_DOWN then MAP_STAIRS_UP
            else if t = MAP_STAIRS_UP then MAP_ROOM else MAP_STAIRS_DOWN)
        else mc.tileAt r k := by
  have hc : isTile (if t = MAP_STAIRS_DOWN then MAP_STAIRS_UP
      else if t = MAP_STAIRS_UP then MAP_ROOM else MAP_STAIRS_DOWN) := by
    unfold isTile
    split_ifs <;> simp
  obtain ⟨mc1, e, i1, y1, x1, d1, _, t1⟩ := hi.place _ hc
  refine ⟨mc1, ?_, i1, y1, x1, d1, t1⟩
  unfold MapContainer.PlaceStairs
  unfold MapContainer.cursorTile at ht
  simp only [ht]
  exact e

theorem Inv.PlaceDoor {h w : Int} {mc : MapContainer} (hi : Inv h w mc) (t : Byte)
    (ht : mc.cursorTile = some t) :
    ∃ mc1, mc.PlaceDoor = some mc1 ∧ Inv h w mc1 ∧ mc1.cy = mc.cy ∧ mc1.cx = mc.cx ∧
      mc1.drawMode = mc.drawMode ∧
      ∀ r k, mc1.tileAt r k =
        if r = mc.cy ∧ k = mc.cx then
          some (if t = MAP_DOOR_CLOSED then MAP_DOOR_OPEN
            else if t = MAP_DOOR_OPEN then MAP_ROOM else MAP_DOOR_CLOSED)
        else mc.tileAt r k := by
  have hc : isTile (if t = MAP_DOOR_CLOSED then MAP_DOOR_OPEN
      else if t = MAP_DOOR_OPEN then MAP_ROOM else MAP_DOOR_CLOSED) := by
    unfold isTile
    split_ifs <;> simp
  obtain ⟨mc1, e, i1, y1, x1, d1, _, t1⟩ := hi.place _ hc
  refine ⟨mc1, ?_, i1, y1, x1, d1, t1⟩
  unfold MapContainer.PlaceDoor
  unfold MapContainer.cursorTile at ht
  simp only [ht]
  exact e

theorem Inv.step {h w : Int} {mc : MapContainer} (hi : Inv h w mc) (op : Op) :
    ∃ mc1, step mc op = some mc1 ∧ Inv h w mc1 := by
  cases op with
  | MoveCursor cy cx =>
    obtain ⟨res, e, i⟩ := hi.MoveCursor cy cx
    exact ⟨res.1, by simp [KeepDrawing.step, e], i⟩
  | SetDrawMode => exact ⟨_, rfl, hi.SetDrawMode⟩
  | PlaceStairs =>
    obtain ⟨t, ht, _⟩ := hi.cursorTile
    obtain ⟨mc1, e, i, _⟩ := hi.PlaceStairs t ht
    exact ⟨mc1, e, i⟩
  | PlaceDoor =>
    obtain ⟨t, ht, _⟩ := hi.cursorTile
    obtain ⟨mc1, e, i, _⟩ := hi.PlaceDoor t ht
    exact ⟨mc1, e, i⟩
  | DrawMap =>
    obtain ⟨mc1, e, i, _⟩ := hi.DrawMap
    exact ⟨mc1, e, i⟩

theorem Inv.run {h w : Int} (ops : List Op) :
    ∀ {mc : MapContainer}, Inv h w mc → ∃ mc1, run mc ops = some mc1 ∧ Inv h w mc1 := by
  induction ops with
  | nil => exact fun hi => ⟨_, rfl, hi⟩
  | cons op ops ih =>
    intro mc hi
    obtain ⟨mc1, e1, i1⟩ := hi.step op
    obtain ⟨mc2, e2, i2⟩ := ih i1
    exact ⟨mc2, by simp [KeepDrawing.run, e1, e2], i2⟩

/-- Every sequence of calls on a new container runs to the end, and the
container it leaves is well formed. -/
theorem reach_inv (h w : Int) (hh : 0 < h) (hw : 0 < w) (ops : List Op) :
    ∃ mc, reach h w ops = some mc ∧ Inv h w mc := by
  obtain ⟨mc0, e0, i0, _⟩ := inv_new h w hh hw
  obtain ⟨mc1, e1, i1⟩ := Inv.run ops i0
  exact ⟨mc1, by simp [reach, e0, e1], i1⟩

theorem inv_of_reach {h w : Int} {ops : List Op} {mc : MapContainer} (hh : 0 < h) (hw : 0 < w)
    (hr : reach h w ops = some mc) : Inv h w mc := by
  obtain ⟨mc1, e, i⟩ := reach_inv h w hh hw ops
  rw [hr] at e
  cases e
  exact i

theorem mapsGet_mapsSetGrid (m : List (Int × Map)) (k : Int) (g : List (List Byte))
    (hk : (m.lookup k).isSome = true) :
    mapsGet (mapsSetGrid m k g) k = { mapsGet m k with Map := g } := by
  induction m with
  | nil => simp at hk
  | cons p rest ih =>
    obtain ⟨k1, v⟩ := p
    by_cases e : k1 = k
    · subst e
      simp [mapsSetGrid, mapsGet, List.lookup]
    · have e2 : (k == k1) = false := by
        simp
        exact fun x => e x.symm
      have hk2 : (rest.lookup k).isSome = true := by
        simpa [List.lookup, e2] using hk
      have := ih hk2
      simp only [mapsSetGrid, e, if_false]
      simp only [mapsGet, List.lookup, e2] at this ⊢
      exact this

theorem lookup_isSome_of_tileAt (mc : MapContainer) (r k : Int) (t : Byte)
    (h : mc.tileAt r k = some t) : (mc.maps.lookup mc.curlevel).isSome = true := by
  cases e : mc.maps.lookup mc.curlevel with
  | some v => rfl
  | none =>
    simp [MapContainer.tileAt, mapsGet, e, zeroMap, index2, index] at h

theorem PlaceDoor_cursorTile {h w : Int} {mc : MapContainer} (hi : Inv h w mc) (t : Byte)
    (ht : mc.cursorTile = some t) :
    ∃ mc1, mc.PlaceDoor = some mc1 ∧ Inv h w mc1 ∧
      mc1.cursorTile = some (if t = MAP_DOOR_CLOSED then MAP_DOOR_OPEN
            else if t = MAP_DOOR_OPEN then MAP_ROOM else MAP_DOOR_CLOSED) := by
  obtain ⟨mc1, e, i1, y1, x1, _, t1⟩ := hi.PlaceDoor t ht
  refine ⟨mc1, e, i1, ?_⟩
  rw [cursorTile_eq_tileAt, t1, y1, x1]
  simp

theorem PlaceStairs_cursorTile {h w : Int} {mc : MapContainer} (hi : Inv h w mc) (t : Byte)
    (ht : mc.cursorTile = some t) :
    ∃ mc1, mc.PlaceStairs = some mc1 ∧ Inv h w mc1 ∧
      mc1.cursorTile = some (if t = MAP_STAIRS_DOWN then MAP_STAIRS_UP
            else if t = MAP_STAIRS_UP then MAP_ROOM else MAP_STAIRS_DOWN) := by
  obtain ⟨mc1, e, i1, y1, x1, _, t1⟩ := hi.PlaceStairs t ht
  refine ⟨mc1, e, i1, ?_⟩
  rw [cursorTile_eq_tileAt, t1, y1, x1]
  simp

/-! ## Lines of the written stream -/

theorem goBytes_append (a b : String) : goBytes (a ++ b) = goBytes a ++ goBytes b := by
  simp [goBytes, String.data_append]

theorem decimalChars_bytes :
    ∀ c ∈ decimalChars, ∀ b ∈ (String.utf8EncodeChar c).map UInt8.toNat, b ≠ NL := by
  decide

theorem digitChar_mem (n : Nat) (h : n < 10) : Nat.digitChar n ∈ decimalChars := by
  interval_cases n <;> decide

theorem toDigitsCore_mem (fuel : Nat) :
    ∀ (n : Nat) (ds : List Char), (∀ c ∈ ds, c ∈ decimalChars) →
      ∀ c ∈ Nat.toDigitsCore 10 fuel n ds, c ∈ decimalChars := by
  induction fuel with
  | zero => intro n ds h; simpa [Nat.toDigitsCore] using h
  | succ f ih =>
    intro n ds h
    have hd : Nat.digitChar (n % 10) ∈ decimalChars := digitChar_mem _ (Nat.mod_lt _ (by decide))
    have h2 : ∀ c ∈ Nat.digitChar (n % 10) :: ds, c ∈ decimalChars := by
      intro c hc
      rcases List.mem_cons.1 hc with e | e
      · exact e ▸ hd
      · exact h c e
    unfold Nat.toDigitsCore
    simp only []
    by_cases hz : n / 10 = 0
    · rw [if_pos hz]
      exact h2
    · rw [if_neg hz]
      exact ih _ _ h2

theorem natRepr_mem (n : Nat) : ∀ c ∈ (Nat.repr n).data, c ∈ decimalChars := by
  simpa [Nat.repr, Nat.toDigits, List.asString] using toDigitsCore_mem (n + 1) n [] (by simp)

theorem intToString_mem (i : Int) : ∀ c ∈ (toString i).data, c ∈ decimalChars := by
  cases i with
  | ofNat n => exact natRepr_mem n
  | negSucc n =>
    intro c hc
    have : toString (Int.negSucc n) = "-" ++ Nat.repr (n + 1) := rfl
    rw [this, String.data_append] at hc
    rcases List.mem_append.1 hc with e | e
    · have : c = '-' := by simpa using e
      subst this
      decide
    · exact natRepr_mem _ c e

/-- A decimal numeral holds no line terminator. -/
theorem verbD_int_no_NL (i : Int) : ∀ b ∈ verbD (Operand.int i), b ≠ NL := by
  intro b hb
  simp only [verbD, goBytes, List.mem_flatMap] at hb
  obtain ⟨c, hc, hb⟩ := hb
  exact decimalChars_bytes c (intToString_mem i c hc) b hb

theorem lines_append_NL (l rest : List Byte) (h : ∀ b ∈ l, b ≠ NL) :
    lines (l ++ NL :: rest) = l :: lines rest := by
  induction l with
  | nil => simp [lines]
  | cons b bs ih =>
    have hb : b ≠ NL := h b (List.mem_cons_self _ _)
    have ih2 := ih (fun x hx => h x (List.mem_cons_of_mem _ hx))
    simp [lines, hb, ih2]

/-! ## The claims on the cursor and the tile toggles -/

/-- C1: on a container made by `NewMapContainer(h, w)` with `h > 0` and `w > 0`
and then driven by any sequence of calls, `MoveCursor(row, col)` with
`0 ≤ row < Height` and `0 ≤ col < Width` of the current level returns
`(row, col)` and leaves the cursor at exactly `(row, col)`. -/
theorem C1_MoveCursor_in_bounds (h w : Int) (hh : 0 < h) (hw : 0 < w) (ops : List Op)
    (mc : MapContainer) (hr : reach h w ops = some mc) (row col : Int)
    (hrow : 0 ≤ row ∧ row < (mapsGet mc.maps mc.curlevel).Height)
    (hcol : 0 ≤ col ∧ col < (mapsGet mc.maps mc.curlevel).Width) :
    ∃ mc1, mc.MoveCursor row col = some (mc1, row, col) ∧ mc1.CursorPosition = (row, col) := by
  have hi := inv_of_reach hh hw hr
  obtain ⟨g, hm, _⟩ := hi.grid
  rw [hm, hi.curlevel, mapsGet_single] at hrow hcol
  obtain ⟨mc1, e, _, y1, x1, _⟩ := hi.MoveCursor_in row col hrow.1 hrow.2 hcol.1 hcol.2
  exact ⟨mc1, e, by simp [MapContainer.CursorPosition, y1, x1]⟩

theorem C1_MoveCursor_in_bounds_witness :
    ∃ mc, reach 2 3 [Op.SetDrawMode, Op.MoveCursor 1 1, Op.PlaceStairs] = some mc ∧
      ∃ mc1, mc.MoveCursor 0 2 = some (mc1, 0, 2) ∧ mc1.CursorPosition = (0, 2) :=
  ⟨_, rfl, C1_MoveCursor_in_bounds 2 3 (by decide) (by decide)
    [Op.SetDrawMode, Op.MoveCursor 1 1, Op.PlaceStairs] _ rfl 0 2 (by decide) (by decide)⟩

/-- C2: for every container and every `(row, col)` with `row < 0`,
`row ≥ height`, `col < 0` or `col ≥ width`, `MoveCursor(row, col)` returns the
prior cursor position and leaves the whole container as it was: the cursor,
every tile of every level and `drawMode`, whatever `drawMode` is. -/
theorem C2_MoveCursor_out_of_bounds (mc : MapContainer) (row col : Int)
    (hout : row < 0 ∨ row ≥ mc.height ∨ col < 0 ∨ col ≥ mc.width) :
    mc.MoveCursor row col = some (mc, mc.CursorPosition.1, mc.CursorPosition.2) := by
  simp only [MapContainer.MoveCursor, hout, if_true, MapContainer.CursorPosition]

theorem C2_MoveCursor_out_of_bounds_witness :
    ∃ mc, reach 2 3 [Op.MoveCursor 1 2, Op.SetDrawMode] = some mc ∧ mc.drawMode = true ∧
      mc.MoveCursor 2 2 = some (mc, 1, 2) ∧ mc.MoveCursor 1 (-1) = some (mc, 1, 2) :=
  ⟨_, rfl, rfl,
    C2_MoveCursor_out_of_bounds _ 2 2 (by decide),
    C2_MoveCursor_out_of_bounds _ 1 (-1) (by decide)⟩

/-- C3: when `drawMode` is active, `MoveCursor(row, col)` to a cell inside the
bounds that holds any tile `t` returns `(row, col)` and leaves the grid of the
current level with the cell `(row, col)` equal to `ROOM`, every other cell as
it was, and every row of its prior length. -/
theorem C3_MoveCursor_paints_room (mc : MapContainer) (row col : Int) (t : Byte)
    (hdraw : mc.drawMode = true)
    (hrow : 0 ≤ row ∧ row < mc.height) (hcol : 0 ≤ col ∧ col < mc.width)
    (hcell : mc.tileAt row col = some t) :
    ∃ mc1, mc.MoveCursor row col = some (mc1, row, col) ∧
      (∀ r k, mc1.tileAt r k = if r = row ∧ k = col then some MAP_ROOM else mc.tileAt r k) ∧
      (mapsGet mc1.maps mc1.curlevel).Map.map List.length =
        (mapsGet mc.maps mc.curlevel).Map.map List.length := by
  have hcond : ¬ (row < 0 ∨ row ≥ mc.height ∨ col < 0 ∨ col ≥ mc.width) := by omega
  have hk := lookup_isSome_of_tileAt mc row col t hcell
  obtain ⟨g, hs, _, hpt, _, _⟩ :=
    index2_setCell (mapsGet mc.maps mc.curlevel).Map row col MAP_ROOM t hcell
  have hget := mapsGet_mapsSetGrid mc.maps mc.curlevel g hk
  have hself : index2 g row col = some MAP_ROOM := by simp [hpt]
  have hshape : g.map List.length = (mapsGet mc.maps mc.curlevel).Map.map List.length := by
    unfold setCell at hs
    cases e1 : index (mapsGet mc.maps mc.curlevel).Map row with
    | none => simp [e1] at hs
    | some rw1 =>
      cases e2 : index rw1 col with
      | none => simp [e1, e2] at hs
      | some b =>
        simp only [e1, e2, Option.some.injEq] at hs
        subst hs
        have hg := ((index_eq_some_iff _ _ _).1 e1).2
        apply List.ext_getElem?
        intro n
        by_cases hn : row.toNat = n
        · subst hn
          simp [List.getElem?_map, List.getElem?_set, hg]
          rcases List.getElem?_eq_some_iff.1 hg with ⟨hlt, _⟩
          simp [hlt]
        · simp [List.getElem?_map, List.getElem?_set, hn]
  refine ⟨{ mc with
      cy := row, cx := col, maps := mapsSetGrid mc.maps mc.curlevel g,
      win := mc.win ++ [WinCall.Clear, WinCall.Box 0 0] ++ printRows g 0 ++
        [WinCall.AttrOn, WinCall.MovePrint (row + 1) (col + 1) (byteString MAP_ROOM),
         WinCall.AttrOff, WinCall.Refresh] }, ?_, ?_, ?_⟩
  · unfold MapContainer.MoveCursor
    rw [if_neg hcond]
    simp only []
    rw [if_pos hdraw]
    simp only [MapContainer.setTile, hs, MapContainer.DrawMap, hget, hself]
  · intro r k
    simp only [MapContainer.tileAt, hget, hpt]
  · simp only [hget, hshape]

theorem C3_MoveCursor_paints_room_witness :
    ∃ mc, reach 2 3 [Op.MoveCursor 1 1, Op.PlaceStairs, Op.MoveCursor 0 1, Op.SetDrawMode] =
        some mc ∧ mc.tileAt 1 1 = some MAP_STAIRS_DOWN ∧
      ∃ mc1, mc.MoveCursor 1 1 = some (mc1, 1, 1) ∧
        (∀ r k, mc1.tileAt r k = if r = 1 ∧ k = 1 then some MAP_ROOM else mc.tileAt r k) ∧
        (mapsGet mc1.maps mc1.curlevel).Map.map List.length =
          (mapsGet mc.maps mc.curlevel).Map.map List.length :=
  ⟨_, rfl, rfl, C3_MoveCursor_paints_room _ 1 1 MAP_STAIRS_DOWN rfl
    (by decide) (by decide) rfl⟩

/-- C4: in every state reached from `NewMapContainer(h, w)`, `h > 0`, `w > 0`,
whose cursor cell holds `ROOM`, three calls of `PlaceDoor` in a row leave the
cursor cell at `DOOR_CLOSED`, then `DOOR_OPEN`, then `ROOM`; and when the
cursor cell holds a tile other than `DOOR_CLOSED` and `DOOR_OPEN`, one call
leaves it at `DOOR_CLOSED`. -/
theorem C4_PlaceDoor_cycle (h w : Int) (hh : 0 < h) (hw : 0 < w) (ops : List Op)
    (mc : MapContainer) (hr : reach h w ops = some mc) :
    (mc.cursorTile = some MAP_ROOM →
      ∃ m1 m2 m3, mc.PlaceDoor = some m1 ∧ m1.cursorTile = some MAP_DOOR_CLOSED ∧
        m1.PlaceDoor = some m2 ∧ m2.cursorTile = some MAP_DOOR_OPEN ∧
        m2.PlaceDoor = some m3 ∧ m3.cursorTile = some MAP_ROOM) ∧
    (∀ t, mc.cursorTile = some t → t ≠ MAP_DOOR_CLOSED → t ≠ MAP_DOOR_OPEN →
      ∃ m1, mc.PlaceDoor = some m1 ∧ m1.cursorTile = some MAP_DOOR_CLOSED) := by
  have hi := inv_of_reach hh hw hr
  constructor
  · intro h0
    obtain ⟨m1, e1, i1, c1⟩ := PlaceDoor_cursorTile hi _ h0
    obtain ⟨m2, e2, i2, c2⟩ := PlaceDoor_cursorTile i1 _ c1
    obtain ⟨m3, e3, _, c3⟩ := PlaceDoor_cursorTile i2 _ c2
    exact ⟨m1, m2, m3, e1, c1, e2, c2, e3, c3⟩
  · intro t h0 n1 n2
    obtain ⟨m1, e1, _, c1⟩ := PlaceDoor_cursorTile hi _ h0
    exact ⟨m1, e1, by simpa [n1, n2] using c1⟩

theorem C4_PlaceDoor_cycle_witness :
    ∃ mc, reach 2 3 [Op.SetDrawMode, Op.MoveCursor 1 1] = some mc ∧
      mc.cursorTile = some MAP_ROOM ∧
      ∃ m1 m2 m3, mc.PlaceDoor = some m1 ∧ m1.cursorTile = some MAP_DOOR_CLOSED ∧
        m1.PlaceDoor = some m2 ∧ m2.cursorTile = some MAP_DOOR_OPEN ∧
        m2.PlaceDoor = some m3 ∧ m3.cursorTile = some MAP_ROOM :=
  ⟨_, rfl, rfl, (C4_PlaceDoor_cycle 2 3 (by decide) (by decide)
    [Op.SetDrawMode, Op.MoveCursor 1 1] _ rfl).1 rfl⟩

/-- C5: in every state reached from `NewMapContainer(h, w)`, `h > 0`, `w > 0`,
whose cursor cell holds `ROOM`, three calls of `PlaceStairs` in a row leave the
cursor cell at `STAIRS_DOWN`, then `STAIRS_UP`, then `ROOM`; and when the
cursor cell holds a tile other than `STAIRS_DOWN` and `STAIRS_UP`, one call
leaves it at `STAIRS_DOWN`. -/
theorem C5_PlaceStairs_cycle (h w : Int) (hh : 0 < h) (hw : 0 < w) (ops : List Op)
    (mc : MapContainer) (hr : reach h w ops = some mc) :
    (mc.cursorTile = some MAP_ROOM →
      ∃ m1 m2 m3, mc.PlaceStairs = some m1 ∧ m1.cursorTile = some MAP_STAIRS_DOWN ∧
        m1.PlaceStairs = some m2 ∧ m2.cursorTile = some MAP_STAIRS_UP ∧
        m2.PlaceStairs = some m3 ∧ m3.cursorTile = some MAP_ROOM) ∧
    (∀ t, mc.cursorTile = some t → t ≠ MAP_STAIRS_DOWN → t ≠ MAP_STAIRS_UP →
      ∃ m1, mc.PlaceStairs = some m1 ∧ m1.cursorTile = some MAP_STAIRS_DOWN) := by
  have hi := inv_of_reach hh hw hr
  constructor
  · intro h0
    obtain ⟨m1, e1, i1, c1⟩ := PlaceStairs_cursorTile hi _ h0
    obtain ⟨m2, e2, i2, c2⟩ := PlaceStairs_cursorTile i1 _ c1
    obtain ⟨m3, e3, _, c3⟩ := PlaceStairs_cursorTile i2 _ c2
    exact ⟨m1, m2, m3, e1, c1, e2, c2, e3, c3⟩
  · intro t h0 n1 n2
    obtain ⟨m1, e1, _, c1⟩ := PlaceStairs_cursorTile hi _ h0
    exact ⟨m1, e1, by simpa [n1, n2] using c1⟩

theorem C5_PlaceStairs_cycle_witness :
    ∃ mc, reach 2 3 [Op.MoveCursor 0 2, Op.PlaceDoor] = some mc ∧
      mc.cursorTile = some MAP_DOOR_CLOSED ∧
      ∃ m1, mc.PlaceStairs = some m1 ∧ m1.cursorTile = some MAP_STAIRS_DOWN :=
  ⟨_, rfl, rfl, (C5_PlaceStairs_cycle 2 3 (by decide) (by decide)
    [Op.MoveCursor 0 2, Op.PlaceDoor] _ rfl).2 MAP_DOOR_CLOSED rfl (by decide) (by decide)⟩

/-- C6: `SetDrawMode` flips `drawMode` and leaves the cursor, the levels, the
points, the level number, the window size and the window itself (no call is
made on it, so no redraw) as they were; two calls in a row give back the
container they started from. -/
theorem C6_SetDrawMode_toggle (mc : MapContainer) :
    mc.SetDrawMode.drawMode = (!mc.drawMode) ∧
    mc.SetDrawMode.cy = mc.cy ∧ mc.SetDrawMode.cx = mc.cx ∧
    mc.SetDrawMode.maps = mc.maps ∧ mc.SetDrawMode.points = mc.points ∧
    mc.SetDrawMode.curlevel = mc.curlevel ∧
    mc.SetDrawMode.height = mc.height ∧ mc.SetDrawMode.width = mc.width ∧
    mc.SetDrawMode.win = mc.win ∧
    mc.SetDrawMode.SetDrawMode = mc := by
  refine ⟨rfl, rfl, rfl, rfl, rfl, rfl, rfl, rfl, rfl, ?_⟩
  cases mc
  simp [MapContainer.SetDrawMode]

/-! ## The order of the levels and the lines of a level block -/

theorem isTile_ne_NL (b : Byte) (h : isTile b) : b ≠ NL := by
  rcases h with e | e | e | e | e | e <;> subst e <;> decide

theorem lines_rows (g : List (List Byte)) (rest : List Byte)
    (h : ∀ row ∈ g, ∀ b ∈ row, b ≠ NL) :
    lines (g.flatMap (fun line => line ++ goBytes "\n") ++ rest) = g ++ lines rest := by
  induction g with
  | nil => simp
  | cons row g ih =>
    have h1 : ∀ b ∈ row, b ≠ NL := h row (List.mem_cons_self _ _)
    have ih2 := ih (fun r hr => h r (List.mem_cons_of_mem _ hr))
    have e : goBytes "\n" = [NL] := by decide
    rw [e] at ih2 ⊢
    simp only [List.flatMap_cons, List.append_assoc, List.singleton_append, List.cons_append]
    rw [lines_append_NL row _ h1, List.nil_append, ih2]

theorem MapSort.sink_perm (x : Map) (l : List Map) : List.Perm (MapSort.sink x l) (x :: l) := by
  induction l with
  | nil => simp [MapSort.sink]
  | cons y ys ih =>
    unfold MapSort.sink
    by_cases hxy : MapSort.Less x y = true
    · rw [if_pos hxy]
      exact (List.Perm.cons y ih).trans (List.Perm.swap x y ys)
    · rw [if_neg hxy]

theorem MapSort.sink_sorted (x : Map) (l : List Map)
    (h : List.Pairwise (fun a b : Map => b.Level ≤ a.Level) l) :
    List.Pairwise (fun a b : Map => b.Level ≤ a.Level) (MapSort.sink x l) := by
  induction l with
  | nil => simp [MapSort.sink]
  | cons y ys ih =>
    rw [List.pairwise_cons] at h
    unfold MapSort.sink
    by_cases hxy : MapSort.Less x y = true
    · rw [if_pos hxy, List.pairwise_cons]
      refine ⟨?_, ih h.2⟩
      intro z hz
      rcases List.mem_cons.1 ((MapSort.sink_perm x ys).mem_iff.1 hz) with e | e
      · subst e
        have : z.Level < y.Level := by simpa [MapSort.Less] using hxy
        omega
      · exact h.1 z e
    · rw [if_neg hxy]
      have hyx : y.Level ≤ x.Level := by
        have : ¬ x.Level < y.Level := by simpa [MapSort.Less] using hxy
        omega
      rw [List.pairwise_cons, List.pairwise_cons]
      refine ⟨?_, h.1, h.2⟩
      intro z hz
      rcases List.mem_cons.1 hz with e | e
      · subst e
        exact hyx
      · have := h.1 z e
        omega

theorem MapSort.foldl_sink (l : List Map) :
    ∀ acc : List Map, List.Pairwise (fun a b : Map => b.Level ≤ a.Level) acc →
      List.Pairwise (fun a b : Map => b.Level ≤ a.Level)
        (l.foldl (fun acc x => MapSort.sink x acc) acc) ∧
      List.Perm (l.foldl (fun acc x => MapSort.sink x acc) acc) (l ++ acc) := by
  induction l with
  | nil => exact fun acc h => ⟨h, List.Perm.refl _⟩
  | cons x xs ih =>
    intro acc h
    obtain ⟨h1, h2⟩ := ih (MapSort.sink x acc) (MapSort.sink_sorted x acc h)
    refine ⟨h1, h2.trans ?_⟩
    have := (MapSort.sink_perm x acc)
    exact (List.Perm.append_left xs this).trans (List.perm_middle)

/-- The sort returns its input in ascending order of level. -/
theorem MapSort.Sort_sorted (m : List Map) :
    List.Pairwise (fun a b : Map => a.Level ≤ b.Level) (MapSort.Sort m) ∧
      List.Perm (MapSort.Sort m) m := by
  obtain ⟨h1, h2⟩ := MapSort.foldl_sink m [] List.Pairwise.nil
  constructor
  · exact List.pairwise_reverse.2 h1
  · exact (List.reverse_perm _).trans (by simpa using h2)

theorem MapSort.Sort_strict (m : List Map) (hnd : (m.map (fun mp : Map => mp.Level)).Nodup) :
    List.Pairwise (fun a b : Map => a.Level < b.Level) (MapSort.Sort m) := by
  obtain ⟨h1, h2⟩ := MapSort.Sort_sorted m
  have h3 : ((MapSort.Sort m).map (fun mp : Map => mp.Level)).Nodup :=
    ((h2.map _).nodup_iff).2 hnd
  have h4 : List.Pairwise (fun a b : Map => a.Level ≠ b.Level) (MapSort.Sort m) := by
    simpa [List.Nodup, List.pairwise_map] using h3
  exact (h1.and h4).imp (fun ⟨hle, hne⟩ => lt_of_le_of_ne hle hne)

/-- Two lists in strictly ascending order of level with the same elements are equal. -/
theorem ascending_unique (l1 l2 : List Map) (hp : List.Perm l1 l2)
    (h1 : List.Pairwise (fun a b : Map => a.Level < b.Level) l1)
    (h2 : List.Pairwise (fun a b : Map => a.Level < b.Level) l2) : l1 = l2 := by
  haveI : IsAntisymm Map (fun a b : Map => a.Level < b.Level) :=
    ⟨fun a b hab hba => absurd hab (not_lt.2 (le_of_lt hba))⟩
  exact List.eq_of_perm_of_sorted hp h1 h2

theorem goBytes_nl : goBytes "\n" = [NL] := by decide

theorem levelLine_no_NL (i : Int) : ∀ b ∈ goBytes "Level " ++ verbD (Operand.int i), b ≠ NL := by
  intro b hb
  rcases List.mem_append.1 hb with e | e
  · have hl : ∀ x ∈ goBytes "Level ", x ≠ NL := by decide
    exact hl b e
  · exact verbD_int_no_NL i b e

theorem dimensionLine_no_NL (wd ht : Int) :
    ∀ b ∈ verbD (Operand.int wd) ++ goBytes " Ã— " ++ verbD (Operand.int ht), b ≠ NL := by
  intro b hb
  rcases List.mem_append.1 hb with e | e
  · rcases List.mem_append.1 e with e1 | e1
    · exact verbD_int_no_NL wd b e1
    · have hl : ∀ x ∈ goBytes " Ã— ", x ≠ NL := by decide
      exact hl b e1
  · exact verbD_int_no_NL ht b e

/-- The block of a level, line by line: the two header lines, then what the
rows and the closing line terminator give. -/
theorem lines_writeLevel (mp : Map) :
    lines (writeLevel mp) =
      (goBytes "Level " ++ verbD (Operand.int mp.Level)) ::
      (verbD (Operand.int mp.Width) ++ goBytes " Ã— " ++ verbD (Operand.int mp.Height)) ::
      lines (mp.Map.flatMap (fun line => line ++ goBytes "\n") ++ goBytes "\n") := by
  unfold writeLevel
  rw [goBytes_nl]
  simp only [List.append_assoc, List.singleton_append, List.cons_append, List.nil_append]
  have h1 := lines_append_NL _
    (verbD (Operand.int mp.Width) ++ (goBytes " Ã— " ++ (verbD (Operand.int mp.Height) ++
      NL :: ((mp.Map.flatMap fun line => line ++ [NL]) ++ [NL]))))
    (levelLine_no_NL mp.Level)
  have h2 := lines_append_NL _ ((mp.Map.flatMap fun line => line ++ [NL]) ++ [NL])
    (dimensionLine_no_NL mp.Width mp.Height)
  simp only [List.append_assoc] at h1 h2
  rw [h1, h2]

theorem sortedLevels_of_inv {h w : Int} {mc : MapContainer} (hi : Inv h w mc) :
    ∃ g : List (List Byte), mc.sortedLevels = [{ Level := 1, Map := g, Height := h, Width := w }] ∧
      g.length = h.toNat ∧ (∀ row ∈ g, row.length = w.toNat) ∧
      (∀ row ∈ g, ∀ b ∈ row, isTile b) := by
  obtain ⟨g, hm, h1, h2, h3⟩ := hi.grid
  exact ⟨g, by simp [MapContainer.sortedLevels, hm, MapSort.Sort, MapSort.sink], h1, h2, h3⟩

/-! ## The claims on the written stream -/

/-- C7: the stream written for the container of `NewMapContainer(2, 3)` with the
one point `'a'` labelled "Treasure". The verb `%s` is given the rune itself, so
the first line is `%!s(int32=97): Treasure` and not `a: Treasure`; the second
line is empty. -/
theorem C7_points_line_at_treasure :
    treasureContainer.map (fun mc => lines mc.WriteToFile) =
      some [goBytes "%!s(int32=97): Treasure", [], goBytes "Level 1", goBytes "3 Ã— 2",
        goBytes "   ", goBytes "   ", []] ∧
    goBytes "%!s(int32=97): Treasure" ≠ goBytes "a: Treasure" := by
  decide

/-- C8, the claim as it stands fails: the level of `NewMapContainer(2, 3)`, of
width 3, height 2 and id 1, is written with the dimension line `3 Ã— 2`, which
is not `3 x 2`. -/
theorem C8_dimension_line_not_letter_x :
    (reach 2 3 []).map (fun mc => (lines mc.WriteToFile).take 3) =
      some [[], goBytes "Level 1", goBytes "3 Ã— 2"] ∧
    goBytes "3 Ã— 2" ≠ goBytes "3 x 2" := by
  decide

/-- C8, amended: for every container and every level `mp` that `WriteToFile`
writes, after the levels `pre` and before the levels `post`, the stream is
the points, the separator and the blocks of `pre`, then the line
`Level <level>` (decimal id), then the line `<width> Ã— <height>` (decimal
width, a space, the two characters `Ã—`, a space, decimal height), then the
rest of the block of `mp`, then the blocks of `post`. -/
theorem C8_level_header (mc : MapContainer) (pre post : List Map) (mp : Map)
    (hsplit : mc.sortedLevels = pre ++ mp :: post) :
    ∃ body : List Byte,
      mc.WriteToFile =
        (writePoints mc.points ++ goBytes "\n" ++ pre.flatMap writeLevel) ++
        (goBytes ("Level " ++ toString mp.Level ++ "\n") ++
          goBytes (toString mp.Width ++ " Ã— " ++ toString mp.Height ++ "\n") ++ body) ++
        post.flatMap writeLevel ∧
      (lines (goBytes ("Level " ++ toString mp.Level ++ "\n") ++
          goBytes (toString mp.Width ++ " Ã— " ++ toString mp.Height ++ "\n") ++ body)).take 2 =
        [goBytes ("Level " ++ toString mp.Level),
         goBytes (toString mp.Width ++ " Ã— " ++ toString mp.Height)] := by
  have hblock : goBytes ("Level " ++ toString mp.Level ++ "\n") ++
      goBytes (toString mp.Width ++ " Ã— " ++ toString mp.Height ++ "\n") ++
      (mp.Map.flatMap (fun line => line ++ goBytes "\n") ++ goBytes "\n") = writeLevel mp := by
    simp only [writeLevel, verbD, goBytes_append, List.append_assoc]
  refine ⟨mp.Map.flatMap (fun line => line ++ goBytes "\n") ++ goBytes "\n", ?_, ?_⟩
  · rw [hblock]
    simp only [MapContainer.WriteToFile, hsplit, List.flatMap_append, List.flatMap_cons,
      List.append_assoc]
  · rw [hblock, lines_writeLevel]
    simp only [verbD, goBytes_append, List.take_succ_cons, List.take_zero]

theorem C8_level_header_witness :
    ∃ mc, reach 2 3 [] = some mc ∧ ∃ body : List Byte,
      mc.WriteToFile = goBytes "\n" ++ (goBytes "Level 1\n" ++ goBytes "3 Ã— 2\n" ++ body) ∧
      (lines (goBytes "Level 1\n" ++ goBytes "3 Ã— 2\n" ++ body)).take 2 =
        [goBytes "Level 1", goBytes "3 Ã— 2"] := by
  refine ⟨_, rfl, ?_⟩
  obtain ⟨body, h1, h2⟩ := C8_level_header
    ((reach 2 3 []).get rfl) [] [] (mapsGet ((reach 2 3 []).get rfl).maps 1) (by decide)
  have e0 : writePoints ((reach 2 3 []).get rfl).points = [] := by decide
  have e1 : goBytes ("Level " ++ toString (mapsGet ((reach 2 3 []).get rfl).maps 1).Level ++ "\n")
      = goBytes "Level 1\n" := by decide
  have e2 : goBytes (toString (mapsGet ((reach 2 3 []).get rfl).maps 1).Width ++ " Ã— " ++
      toString (mapsGet ((reach 2 3 []).get rfl).maps 1).Height ++ "\n") = goBytes "3 Ã— 2\n" := by
    decide
  rw [e1, e2] at h1 h2
  rw [e0] at h1
  simp only [List.flatMap_nil, List.append_nil, List.nil_append] at h1
  exact ⟨body, h1, h2⟩

/-- C9: in every state reached from `NewMapContainer(h, w)`, `h > 0`, `w > 0`,
each level that `WriteToFile` writes has `Height` rows of `Width` tile codes,
and what is written after the points separator is, line by line: the two
header lines of the level, then its rows, one line each and byte for byte,
then one empty line. -/
theorem C9_level_body (h w : Int) (hh : 0 < h) (hw : 0 < w) (ops : List Op)
    (mc : MapContainer) (hr : reach h w ops = some mc) (mp : Map)
    (hmp : mp ∈ mc.sortedLevels) :
    (mp.Map.length : Int) = mp.Height ∧
    (∀ row ∈ mp.Map, (row.length : Int) = mp.Width ∧ ∀ b ∈ row, isTile b) ∧
    (∃ header : List Byte, writeLevel mp =
      header ++ mp.Map.flatMap (fun row => row ++ [NL]) ++ [NL] ∧ lines header =
        [goBytes ("Level " ++ toString mp.Level),
         goBytes (toString mp.Width ++ " Ã— " ++ toString mp.Height)]) ∧
    lines (mp.Map.flatMap (fun row => row ++ [NL]) ++ [NL]) = mp.Map ++ [[]] ∧
    lines (writeLevel mp) =
      [goBytes ("Level " ++ toString mp.Level),
       goBytes (toString mp.Width ++ " Ã— " ++ toString mp.Height)] ++ mp.Map ++ [[]] ∧
    lines mc.WriteToFile = [] :: lines (writeLevel mp) := by
  have hi := inv_of_reach hh hw hr
  obtain ⟨g, hs, hlen, hcols, htiles⟩ := sortedLevels_of_inv hi
  rw [hs, List.mem_singleton] at hmp
  subst hmp
  have hnl : ∀ row ∈ g, ∀ b ∈ row, b ≠ NL := fun row hrow b hb => isTile_ne_NL b (htiles row hrow b hb)
  have hbody : lines (g.flatMap (fun row => row ++ [NL]) ++ [NL]) = g ++ [[]] := by
    have := lines_rows g [NL] hnl
    rw [goBytes_nl] at this
    rw [this]
    simp [lines]
  have hhead : goBytes "Level " ++ verbD (Operand.int 1) ++ goBytes "\n" ++
      (verbD (Operand.int w) ++ goBytes " Ã— " ++ verbD (Operand.int h) ++ goBytes "\n") =
      (goBytes "Level " ++ verbD (Operand.int 1)) ++ NL ::
        ((verbD (Operand.int w) ++ goBytes " Ã— " ++ verbD (Operand.int h)) ++ NL :: []) := by
    simp [goBytes_nl]
  refine ⟨?_, ?_, ?_, hbody, ?_, ?_⟩
  · simp only [hlen]
    omega
  · intro row hrow
    refine ⟨?_, htiles row hrow⟩
    simp only [hcols row hrow]
    omega
  · refine ⟨goBytes "Level " ++ verbD (Operand.int 1) ++ goBytes "\n" ++
      (verbD (Operand.int w) ++ goBytes " Ã— " ++ verbD (Operand.int h) ++ goBytes "\n"), ?_, ?_⟩
    · simp only [writeLevel, goBytes_nl, List.append_assoc]
    · rw [hhead, lines_append_NL _ _ (levelLine_no_NL 1),
        lines_append_NL _ _ (dimensionLine_no_NL w h)]
      simp [lines, verbD, goBytes_append]
  · rw [lines_writeLevel, goBytes_nl, hbody]
    simp [verbD, goBytes_append]
  · simp only [MapContainer.WriteToFile, hi.points, hs, writePoints, List.flatMap_nil,
      List.flatMap_cons, List.nil_append, List.append_nil, goBytes_nl, List.singleton_append]
    simp [lines]

theorem C9_level_body_witness :
    ∃ mc, reach 2 3 [] = some mc ∧
      lines (writeLevel (mapsGet mc.maps 1)) =
        [goBytes "Level 1", goBytes "3 Ã— 2", goBytes "   ", goBytes "   ", []] ∧
      lines mc.WriteToFile =
        [[], goBytes "Level 1", goBytes "3 Ã— 2", goBytes "   ", goBytes "   ", []] := by
  refine ⟨_, rfl, ?_⟩
  obtain ⟨_, _, _, _, h5, h6⟩ := C9_level_body 2 3 (by decide) (by decide) []
    ((reach 2 3 []).get rfl) (by decide) (mapsGet ((reach 2 3 []).get rfl).maps 1) (by decide)
  exact ⟨h5.trans (by decide), h6.trans (by decide)⟩

/-- C10: for every container whose levels have pairwise distinct level ids,
`WriteToFile` writes the blocks of the levels in strictly ascending order of
level id, each level once, and the order is the same for every order in which
the level map is visited; it is the only ascending arrangement of the levels,
so it does not depend on the sorting method of the library. -/
theorem C10_levels_ascending (mc : MapContainer)
    (hnd : (mc.maps.map (fun kv => kv.2.Level)).Nodup) :
    mc.WriteToFile =
      writePoints mc.points ++ goBytes "\n" ++ mc.sortedLevels.flatMap writeLevel ∧
    List.Pairwise (fun a b : Map => a.Level < b.Level) mc.sortedLevels ∧
    List.Perm mc.sortedLevels (mc.maps.map Prod.snd) ∧
    (∀ mc2 : MapContainer, List.Perm mc2.maps mc.maps →
      mc2.sortedLevels = mc.sortedLevels ∧
      mc2.sortedLevels.flatMap writeLevel = mc.sortedLevels.flatMap writeLevel) ∧
    ∀ l : List Map, List.Perm l (mc.maps.map Prod.snd) →
      List.Pairwise (fun a b : Map => a.Level ≤ b.Level) l → l = mc.sortedLevels := by
  have hnd1 : ((mc.maps.map Prod.snd).map (fun mp : Map => mp.Level)).Nodup := by
    simpa [List.map_map, Function.comp_def] using hnd
  refine ⟨rfl, MapSort.Sort_strict _ hnd1, (MapSort.Sort_sorted _).2, ?_, ?_⟩
  rotate_left
  · intro l hp hs
    have hndl : (l.map (fun mp : Map => mp.Level)).Nodup := ((hp.map _).nodup_iff).2 hnd1
    have hne : List.Pairwise (fun a b : Map => a.Level ≠ b.Level) l := by
      simpa [List.Nodup, List.pairwise_map] using hndl
    exact ascending_unique _ _ (hp.trans (MapSort.Sort_sorted _).2.symm)
      ((hs.and hne).imp (fun ⟨hle, hn⟩ => lt_of_le_of_ne hle hn)) (MapSort.Sort_strict _ hnd1)
  intro mc2 hp
  have hp1 : List.Perm (mc2.maps.map Prod.snd) (mc.maps.map Prod.snd) := hp.map _
  have hnd2 : ((mc2.maps.map Prod.snd).map (fun mp : Map => mp.Level)).Nodup :=
    ((hp1.map _).nodup_iff).2 hnd1
  have heq : mc2.sortedLevels = mc.sortedLevels :=
    ascending_unique _ _
      (((MapSort.Sort_sorted _).2.trans hp1).trans (MapSort.Sort_sorted _).2.symm)
      (MapSort.Sort_strict _ hnd2) (MapSort.Sort_strict _ hnd1)
  exact ⟨heq, by rw [heq]⟩

theorem C10_levels_ascending_witness :
    (threeLevels.maps.map (fun kv => kv.2.Level)) = [3, 1, 2] ∧
    threeLevels.sortedLevels.map (fun mp : Map => mp.Level) = [1, 2, 3] ∧
    List.Pairwise (fun a b : Map => a.Level < b.Level) threeLevels.sortedLevels ∧
    List.Perm threeLevels.sortedLevels (threeLevels.maps.map Prod.snd) :=
  ⟨by decide, by decide,
    (C10_levels_ascending threeLevels (by decide)).2.1,
    (C10_levels_ascending threeLevels (by decide)).2.2.1⟩

/-! ## The redraw, the constructor and the invariants of the container -/

theorem printRows_no_refresh (g : List (List Byte)) :
    ∀ i : Int, (printRows g i).count WinCall.Refresh = 0 := by
  induction g with
  | nil => intro i; simp [printRows]
  | cons row rest ih =>
    intro i
    simp only [printRows]
    rw [List.count_cons_of_ne (by simp)]
    exact ih (i + 1)

/-- A draw that returns has made one more redraw, and changed nothing but the window. -/
theorem DrawMap_redrawCount (mc mc1 : MapContainer) (h : mc.DrawMap = some mc1) :
    redrawCount mc1.win = redrawCount mc.win + 1 ∧ mc1.maps = mc.maps ∧ mc1.cy = mc.cy ∧
      mc1.cx = mc.cx ∧ mc1.drawMode = mc.drawMode ∧ mc1.curlevel = mc.curlevel ∧
      mc1.points = mc.points ∧ mc1.height = mc.height ∧ mc1.width = mc.width := by
  unfold MapContainer.DrawMap at h
  cases e : index2 (mapsGet mc.maps mc.curlevel).Map mc.cy mc.cx with
  | none => simp [e] at h
  | some t =>
    simp only [e, Option.some.injEq] at h
    subst h
    refine ⟨?_, rfl, rfl, rfl, rfl, rfl, rfl, rfl, rfl⟩
    simp [redrawCount, List.count_append, printRows_no_refresh, List.count_cons]

/-- A move to a cell of the grid ends with a draw of the container as it is
after the cursor has moved and the cell has been painted. -/
theorem Inv.MoveCursor_in_draw {h w : Int} {mc : MapContainer} (hi : Inv h w mc) (cy cx : Int)
    (h0 : 0 ≤ cy) (h1 : cy < h) (k0 : 0 ≤ cx) (k1 : cx < w) :
    ∃ mc2 mc1 : MapContainer, mc2.win = mc.win ∧ mc2.DrawMap = some mc1 ∧
      mc.MoveCursor cy cx = some (mc1, cy, cx) := by
  have hcond : ¬ (cy < 0 ∨ cy ≥ mc.height ∨ cx < 0 ∨ cx ≥ mc.width) := by
    rw [hi.height, hi.width]
    omega
  have hi0 := hi.moved cy cx h0 h1 k0 k1
  by_cases hd : mc.drawMode = true
  case neg =>
    obtain ⟨mc3, e3, _, _, y3, x3, _⟩ := hi0.DrawMap
    refine ⟨{ mc with cy := cy, cx := cx }, mc3, rfl, e3, ?_⟩
    unfold MapContainer.MoveCursor
    rw [if_neg hcond]
    simp only []
    rw [if_neg (by simp [hd])]
    simp only [e3, y3, x3]
  case pos =>
    obtain ⟨mc2, e2, i2, y2, x2, _, w2, _⟩ := hi0.setTile MAP_ROOM isTile_room
    obtain ⟨mc3, e3, _, _, y3, x3, _⟩ := i2.DrawMap
    refine ⟨mc2, mc3, w2, e3, ?_⟩
    unfold MapContainer.MoveCursor
    rw [if_neg hcond]
    simp only []
    rw [if_pos (by simp [hd]), e2]
    simp only [e3, y3, x3, y2, x2]

/-- C11, the claim as it stands fails: on the container of
`NewMapContainer(2, 3)` the call `MoveCursor(-1, 0)` returns the prior
position `(0, 0)` and makes no call on the window, so no redraw. -/
theorem C11_out_of_bounds_no_redraw :
    ∃ mc, reach 2 3 [] = some mc ∧
      ∃ mc1, mc.MoveCursor (-1) 0 = some (mc1, 0, 0) ∧ mc1.win = mc.win ∧
        redrawCount mc1.win = redrawCount mc.win :=
  ⟨_, rfl, _, rfl, rfl, rfl⟩

/-- C11, amended: in every state reached from `NewMapContainer(h, w)`, `h > 0`,
`w > 0`, a call of `MoveCursor` returns; when `(row, col)` is on the current
level the call ends with one `DrawMap`, one redraw more on the window, also
when the cursor was at `(row, col)` already, and returns `(row, col)`; when
`(row, col)` is off the level the call returns at the guard with the prior
position, makes no call on the window and leaves the container as it was. -/
theorem C11_MoveCursor_redraw (h w : Int) (hh : 0 < h) (hw : 0 < w) (ops : List Op)
    (mc : MapContainer) (hr : reach h w ops = some mc) (row col : Int) :
    ∃ mc1 r c, mc.MoveCursor row col = some (mc1, r, c) ∧
      ((0 ≤ row ∧ row < (mapsGet mc.maps mc.curlevel).Height ∧
          0 ≤ col ∧ col < (mapsGet mc.maps mc.curlevel).Width) →
        (∃ mc2 : MapContainer, mc2.win = mc.win ∧ mc2.DrawMap = some mc1) ∧
          redrawCount mc1.win = redrawCount mc.win + 1 ∧ r = row ∧ c = col) ∧
      (¬ (0 ≤ row ∧ row < (mapsGet mc.maps mc.curlevel).Height ∧
          0 ≤ col ∧ col < (mapsGet mc.maps mc.curlevel).Width) →
        mc1.win = mc.win ∧ redrawCount mc1.win = redrawCount mc.win ∧
          mc1 = mc ∧ r = mc.cy ∧ c = mc.cx) := by
  have hi := inv_of_reach hh hw hr
  obtain ⟨g, hm, _⟩ := hi.grid
  rw [hm, hi.curlevel, mapsGet_single]
  simp only []
  by_cases hin : 0 ≤ row ∧ row < h ∧ 0 ≤ col ∧ col < w
  · obtain ⟨mc2, mc1, w2, e2, e⟩ := hi.MoveCursor_in_draw row col hin.1 hin.2.1 hin.2.2.1 hin.2.2.2
    refine ⟨mc1, row, col, e, fun _ => ⟨⟨mc2, w2, e2⟩, ?_, rfl, rfl⟩, fun hn => absurd hin hn⟩
    rw [(DrawMap_redrawCount mc2 mc1 e2).1, w2]
  · have hcond : row < 0 ∨ row ≥ mc.height ∨ col < 0 ∨ col ≥ mc.width := by
      rw [hi.height, hi.width]
      omega
    refine ⟨mc, mc.cy, mc.cx, ?_, fun h1 => absurd h1 hin, fun _ => ⟨rfl, rfl, rfl, rfl, rfl⟩⟩
    simp only [MapContainer.MoveCursor, hcond, if_true]

theorem C11_MoveCursor_redraw_witness :
    ∃ mc, reach 2 3 [Op.DrawMap, Op.MoveCursor 1 1] = some mc ∧
      ∃ mc1 r c, mc.MoveCursor 1 1 = some (mc1, r, c) ∧
        redrawCount mc.win = 2 ∧ redrawCount mc1.win = 3 := by
  refine ⟨_, rfl, ?_⟩
  obtain ⟨mc1, r, c, e, hin, _⟩ := C11_MoveCursor_redraw 2 3 (by decide) (by decide)
    [Op.DrawMap, Op.MoveCursor 1 1] _ rfl 1 1
  exact ⟨mc1, r, c, e, by decide, (hin (by decide)).2.1⟩

/-- C12: for `height > 0` and `width > 0`, `NewMapContainer(height, width)`
returns a container with exactly one level, under the key 1 and with id 1,
whose `Height` and `Width` are the arguments and whose grid is `height` rows of
`width` copies of `NONE`, with current level 1, the cursor at `(0, 0)`,
`drawMode` off and no point of interest. -/
theorem C12_NewMapContainer (height width : Int) (hh : 0 < height) (hw : 0 < width) :
    ∃ mc mp, NewMapContainer height width = some mc ∧ mc.maps = [(1, mp)] ∧
      mp.Level = 1 ∧ mp.Height = height ∧ mp.Width = width ∧
      mp.Map = List.replicate height.toNat (List.replicate width.toNat MAP_NONE) ∧
      (mp.Map.length : Int) = height ∧
      (∀ row ∈ mp.Map, (row.length : Int) = width ∧ ∀ b ∈ row, b = MAP_NONE) ∧
      mc.CurrentLevel = 1 ∧ mc.CursorPosition = (0, 0) ∧ mc.DrawMode = false ∧
      mc.points = [] := by
  have h1 : ¬ height < 0 := by omega
  have h2 : ¬ (0 < height ∧ width < 0) := by omega
  have hnew : NewMapContainer height width = some
      { points := [],
        maps := [(1, { Level := 1,
                       Map := List.replicate height.toNat (List.replicate width.toNat MAP_NONE),
                       Height := height, Width := width })],
        curlevel := 1, win := [], height := height, width := width, cy := 0, cx := 0,
        drawMode := false } := by
    simp only [NewMapContainer, h1, h2, if_false]
    rfl
  refine ⟨_, _, hnew, rfl, rfl, rfl, rfl, rfl, ?_, ?_, rfl, rfl, rfl, rfl⟩
  · simp only [List.length_replicate]
    omega
  · intro row hrow
    rw [List.eq_of_mem_replicate hrow]
    refine ⟨?_, fun b hb => List.eq_of_mem_replicate hb⟩
    simp only [List.length_replicate]
    omega

theorem C12_NewMapContainer_witness :
    ∃ mc mp, NewMapContainer 2 3 = some mc ∧ mc.maps = [(1, mp)] ∧
      mp.Level = 1 ∧ mp.Height = 2 ∧ mp.Width = 3 ∧
      mp.Map = List.replicate (2 : Int).toNat (List.replicate (3 : Int).toNat MAP_NONE) ∧
      (mp.Map.length : Int) = 2 ∧
      (∀ row ∈ mp.Map, (row.length : Int) = 3 ∧ ∀ b ∈ row, b = MAP_NONE) ∧
      mc.CurrentLevel = 1 ∧ mc.CursorPosition = (0, 0) ∧ mc.DrawMode = false ∧
      mc.points = [] :=
  C12_NewMapContainer 2 3 (by decide) (by decide)

/-- C13: after any sequence of calls of `MoveCursor` (with any arguments),
`SetDrawMode`, `PlaceStairs`, `PlaceDoor` and `DrawMap` on the container of
`NewMapContainer(h, w)`, `h > 0`, `w > 0`, no call has panicked, the cursor is
at a row and a column of the current level, and the read of the grid at the
cursor that `DrawMap`, `PlaceStairs` and `PlaceDoor` make finds a tile, so that
each of the three returns. -/
theorem C13_cursor_in_bounds (h w : Int) (hh : 0 < h) (hw : 0 < w) (ops : List Op) :
    ∃ mc, reach h w ops = some mc ∧
      0 ≤ mc.cy ∧ mc.cy < (mapsGet mc.maps mc.curlevel).Height ∧
      0 ≤ mc.cx ∧ mc.cx < (mapsGet mc.maps mc.curlevel).Width ∧
      (mc.cy.toNat < (mapsGet mc.maps mc.curlevel).Map.length) ∧
      (∀ row, index (mapsGet mc.maps mc.curlevel).Map mc.cy = some row →
        mc.cx.toNat < row.length) ∧
      (∃ t, index2 (mapsGet mc.maps mc.curlevel).Map mc.cy mc.cx = some t) ∧
      (∃ m1, mc.DrawMap = some m1) ∧ (∃ m1, mc.PlaceStairs = some m1) ∧
      (∃ m1, mc.PlaceDoor = some m1) := by
  obtain ⟨mc, hr, hi⟩ := reach_inv h w hh hw ops
  obtain ⟨g, hm, hlen, hcols, _⟩ := hi.grid
  obtain ⟨t, ht, _⟩ := hi.cursorTile
  obtain ⟨d1, hd1, _⟩ := hi.DrawMap
  obtain ⟨s1, hs1, _⟩ := hi.PlaceStairs t ht
  obtain ⟨p1, hp1, _⟩ := hi.PlaceDoor t ht
  have hcy := hi.cy
  have hcx := hi.cx
  refine ⟨mc, hr, ?_, ?_, ?_, ?_, ?_, ?_, ⟨t, ht⟩, ⟨d1, hd1⟩, ⟨s1, hs1⟩, ⟨p1, hp1⟩⟩
  · exact hcy.1
  · rw [hm, hi.curlevel, mapsGet_single]
    exact hcy.2
  · exact hcx.1
  · rw [hm, hi.curlevel, mapsGet_single]
    exact hcx.2
  · rw [hm, hi.curlevel, mapsGet_single]
    simp only [hlen]
    omega
  · rw [hm, hi.curlevel, mapsGet_single]
    intro row hrow
    have hmem := List.getElem?_mem ((index_eq_some_iff _ _ _).1 hrow).2
    rw [hcols row hmem]
    omega

theorem C13_cursor_in_bounds_witness :
    ∃ mc, reach 2 3 [Op.MoveCursor 1 2, Op.MoveCursor 2 2, Op.MoveCursor 1 3,
        Op.MoveCursor (-1) 0, Op.SetDrawMode, Op.PlaceStairs, Op.PlaceDoor] = some mc ∧
      0 ≤ mc.cy ∧ mc.cy < (mapsGet mc.maps mc.curlevel).Height ∧
      0 ≤ mc.cx ∧ mc.cx < (mapsGet mc.maps mc.curlevel).Width ∧
      (mc.cy.toNat < (mapsGet mc.maps mc.curlevel).Map.length) ∧
      (∀ row, index (mapsGet mc.maps mc.curlevel).Map mc.cy = some row →
        mc.cx.toNat < row.length) ∧
      (∃ t, index2 (mapsGet mc.maps mc.curlevel).Map mc.cy mc.cx = some t) ∧
      (∃ m1, mc.DrawMap = some m1) ∧ (∃ m1, mc.PlaceStairs = some m1) ∧
      (∃ m1, mc.PlaceDoor = some m1) :=
  C13_cursor_in_bounds 2 3 (by decide) (by decide) _

theorem setCell_rows (g : List (List Byte)) (cy cx : Int) (c : Byte) (g1 : List (List Byte))
    (h : setCell g cy cx c = some g1) :
    g1.length = g.length ∧ ∀ row1 ∈ g1, ∃ row0 ∈ g, row1.length = row0.length := by
  unfold setCell at h
  cases e1 : index g cy with
  | none => simp [e1] at h
  | some row =>
    cases e2 : index row cx with
    | none => simp [e1, e2] at h
    | some b =>
      simp only [e1, e2, Option.some.injEq] at h
      subst h
      have hrow : row ∈ g := List.getElem?_mem ((index_eq_some_iff _ _ _).1 e1).2
      refine ⟨by simp, ?_⟩
      intro row1 hmem
      rcases List.mem_or_eq_of_mem_set hmem with h1 | h1
      · exact ⟨row1, h1, rfl⟩
      · exact ⟨row, hrow, by simp [h1]⟩

theorem Shape.of_fields {h w : Int} {mc mc1 : MapContainer} (hs : Shape h w mc)
    (hm : mc1.maps = mc.maps) (hc : mc1.curlevel = mc.curlevel) (hh : mc1.height = mc.height)
    (hw : mc1.width = mc.width) : Shape h w mc1 :=
  ⟨hc.trans hs.curlevel, by rw [hm]; exact hs.grid, hh.trans hs.height, hw.trans hs.width⟩

theorem Shape.of_setTile {h w : Int} {mc mc1 : MapContainer} (hs : Shape h w mc) (c : Byte)
    (he : mc.setTile c = some mc1) : Shape h w mc1 ∧ mc1.cy = mc.cy ∧ mc1.cx = mc.cx := by
  obtain ⟨g, hm, hlen, hcols⟩ := hs.grid
  unfold MapContainer.setTile at he
  rw [hm, hs.curlevel, mapsGet_single] at he
  cases e : setCell g mc.cy mc.cx c with
  | none => simp [e] at he
  | some g1 =>
    simp only [e, Option.some.injEq, mapsSetGrid_single] at he
    subst he
    obtain ⟨hl1, hr1⟩ := setCell_rows g _ _ c g1 e
    refine ⟨⟨rfl, ⟨g1, rfl, by rw [hl1]; exact hlen, ?_⟩, hs.height, hs.width⟩, rfl, rfl⟩
    intro row1 hmem
    obtain ⟨row0, h0, hl⟩ := hr1 row1 hmem
    rw [hl]
    exact hcols row0 h0

theorem Shape.of_DrawMap {h w : Int} {mc mc1 : MapContainer} (hs : Shape h w mc)
    (he : mc.DrawMap = some mc1) : Shape h w mc1 := by
  obtain ⟨_, hm, _, _, _, hc, _, hh, hw⟩ := DrawMap_redrawCount mc mc1 he
  exact hs.of_fields hm hc hh hw

theorem Shape.of_place {h w : Int} {mc mc1 : MapContainer} (hs : Shape h w mc) (c : Byte)
    (he : (match mc.setTile c with
        | none => none
        | some m => m.DrawMap) = some mc1) : Shape h w mc1 := by
  cases e : mc.setTile c with
  | none => simp [e] at he
  | some m2 =>
    simp only [e] at he
    exact (hs.of_setTile c e).1.of_DrawMap he

theorem Shape.of_step {h w : Int} {mc mc1 : MapContainer} (hs : Shape h w mc) (op : Op)
    (he : step mc op = some mc1) : Shape h w mc1 := by
  cases op with
  | MoveCursor cy cx =>
    simp only [KeepDrawing.step, Option.map_eq_some'] at he
    obtain ⟨res, hres, h1⟩ := he
    subst h1
    unfold MapContainer.MoveCursor at hres
    by_cases hcond : cy < 0 ∨ cy ≥ mc.height ∨ cx < 0 ∨ cx ≥ mc.width
    · rw [if_pos hcond] at hres
      cases hres
      exact hs
    · rw [if_neg hcond] at hres
      simp only [] at hres
      have hs0 : Shape h w { mc with cy := cy, cx := cx } := hs.of_fields rfl rfl rfl rfl
      by_cases hd : mc.drawMode = true
      · rw [if_pos hd] at hres
        cases e2 : MapContainer.setTile { mc with cy := cy, cx := cx } MAP_ROOM with
        | none => simp [e2] at hres
        | some m2 =>
          simp only [e2] at hres
          cases e3 : m2.DrawMap with
          | none => simp [e3] at hres
          | some m3 =>
            simp only [e3, Option.some.injEq] at hres
            subst hres
            exact (hs0.of_setTile _ e2).1.of_DrawMap e3
      · rw [if_neg hd] at hres
        simp only [] at hres
        cases e3 : MapContainer.DrawMap { mc with cy := cy, cx := cx } with
        | none => simp [e3] at hres
        | some m3 =>
          simp only [e3, Option.some.injEq] at hres
          subst hres
          exact hs0.of_DrawMap e3
  | SetDrawMode =>
    cases he
    exact hs.of_fields rfl rfl rfl rfl
  | PlaceStairs =>
    simp only [KeepDrawing.step, MapContainer.PlaceStairs] at he
    cases e : index2 (mapsGet mc.maps mc.curlevel).Map mc.cy mc.cx with
    | none => simp [e] at he
    | some t =>
      simp only [e] at he
      exact hs.of_place _ he
  | PlaceDoor =>
    simp only [KeepDrawing.step, MapContainer.PlaceDoor] at he
    cases e : index2 (mapsGet mc.maps mc.curlevel).Map mc.cy mc.cx with
    | none => simp [e] at he
    | some t =>
      simp only [e] at he
      exact hs.of_place _ he
  | DrawMap => exact hs.of_DrawMap he

theorem Shape.of_run {h w : Int} (ops : List Op) :
    ∀ {mc mc1 : MapContainer}, Shape h w mc → run mc ops = some mc1 → Shape h w mc1 := by
  induction ops with
  | nil =>
    intro mc mc1 hs he
    cases he
    exact hs
  | cons op ops ih =>
    intro mc mc1 hs he
    simp only [KeepDrawing.run] at he
    obtain ⟨m2, h2, h3⟩ := Option.bind_eq_some.1 he
    exact ih (hs.of_step op h2) h3

theorem shape_new (h w : Int) (mc : MapContainer) (he : NewMapContainer h w = some mc) :
    Shape h w mc := by
  unfold NewMapContainer at he
  by_cases h1 : h < 0
  · simp [h1] at he
  · rw [if_neg h1] at he
    by_cases h2 : 0 < h ∧ w < 0
    · simp [h2] at he
    · rw [if_neg h2] at he
      simp only [Option.some.injEq] at he
      subst he
      refine ⟨rfl, ⟨_, rfl, ?_, ?_⟩, rfl, rfl⟩
      · simp only [List.length_replicate]
        omega
      · intro row hrow
        have hpos : 0 < h := by
          have := List.length_pos_of_mem hrow
          simp only [List.length_replicate] at this
          omega
        rw [List.eq_of_mem_replicate hrow]
        simp only [List.length_replicate]
        omega

/-- C14: in every state reached from `NewMapContainer(h, w)` by calls of
`MoveCursor`, `SetDrawMode`, `PlaceStairs`, `PlaceDoor` and `DrawMap`, the
`Height` of every level is the number of rows of its grid and its `Width` is the
length of every row, and the `height` and `width` of the container, which the
guard of `MoveCursor` reads, are the `Height` and `Width` of the current
level. -/
theorem C14_dimensions_agree (h w : Int) (ops : List Op) (mc : MapContainer)
    (hr : reach h w ops = some mc) :
    (∀ kv ∈ mc.maps, (kv.2.Map.length : Int) = kv.2.Height ∧
      ∀ row ∈ kv.2.Map, (row.length : Int) = kv.2.Width) ∧
    mc.height = (mapsGet mc.maps mc.curlevel).Height ∧
    mc.width = (mapsGet mc.maps mc.curlevel).Width := by
  unfold reach at hr
  obtain ⟨m0, h0, h1⟩ := Option.bind_eq_some.1 hr
  have hs := Shape.of_run ops (shape_new h w m0 h0) h1
  obtain ⟨g, hm, hlen, hcols⟩ := hs.grid
  rw [hm, hs.curlevel, mapsGet_single, hs.height, hs.width]
  refine ⟨?_, rfl, rfl⟩
  intro kv hkv
  rw [List.mem_singleton] at hkv
  subst hkv
  exact ⟨hlen, hcols⟩

theorem C14_dimensions_agree_witness :
    ∃ mc, reach 2 3 [Op.SetDrawMode, Op.MoveCursor 1 2, Op.PlaceDoor, Op.PlaceStairs] = some mc ∧
      (∀ kv ∈ mc.maps, (kv.2.Map.length : Int) = kv.2.Height ∧
        ∀ row ∈ kv.2.Map, (row.length : Int) = kv.2.Width) ∧
      mc.height = (mapsGet mc.maps mc.curlevel).Height ∧
      mc.width = (mapsGet mc.maps mc.curlevel).Width :=
  ⟨_, rfl, C14_dimensions_agree 2 3
    [Op.SetDrawMode, Op.MoveCursor 1 2, Op.PlaceDoor, Op.PlaceStairs] _ rfl⟩

/-- Two well formed containers of the same size have the same points, the same
level keys and, off the current level, the same levels. -/
theorem Inv.frame {h w : Int} {mc mc1 : MapContainer} (hi : Inv h w mc) (hi1 : Inv h w mc1) :
    mc1.points = mc.points ∧ mc1.curlevel = mc.curlevel ∧
      mc1.maps.map Prod.fst = mc.maps.map Prod.fst ∧
      (∀ k, k ≠ mc.curlevel → mapsGet mc1.maps k = mapsGet mc.maps k) ∧
      (mapsGet mc1.maps mc1.curlevel).Level = (mapsGet mc.maps mc.curlevel).Level ∧
      (mapsGet mc1.maps mc1.curlevel).Height = (mapsGet mc.maps mc.curlevel).Height ∧
      (mapsGet mc1.maps mc1.curlevel).Width = (mapsGet mc.maps mc.curlevel).Width := by
  obtain ⟨g, hm, _⟩ := hi.grid
  obtain ⟨g1, hm1, _⟩ := hi1.grid
  refine ⟨by rw [hi.points, hi1.points], by rw [hi.curlevel, hi1.curlevel],
    by rw [hm, hm1]; rfl, ?_, ?_, ?_, ?_⟩
  · intro k hk
    rw [hi.curlevel] at hk
    have hk2 : (k == (1 : Int)) = false := by simpa using hk
    simp [hm, hm1, mapsGet, List.lookup, hk2]
  all_goals simp [hm, hm1, hi.curlevel, hi1.curlevel, mapsGet_single]

/-- C15: in every state reached from `NewMapContainer(h, w)`, `h > 0`, `w > 0`,
`PlaceStairs` and `PlaceDoor` return and change, in the container, the tile
under the cursor on the current level and nothing else but the window: every
other cell of the level, the keys of the level map and every other level, the
id and the size of the level, the cursor, `drawMode`, the current level and
the points are as before, and the new tile under the cursor is a function of
the old one. -/
theorem C15_toggles_frame (h w : Int) (hh : 0 < h) (hw : 0 < w) (ops : List Op)
    (mc : MapContainer) (hr : reach h w ops = some mc) :
    ∃ t ms md, mc.cursorTile = some t ∧ mc.PlaceStairs = some ms ∧ mc.PlaceDoor = some md ∧
      ms.cursorTile = some (if t = MAP_STAIRS_DOWN then MAP_STAIRS_UP
        else if t = MAP_STAIRS_UP then MAP_ROOM else MAP_STAIRS_DOWN) ∧
      md.cursorTile = some (if t = MAP_DOOR_CLOSED then MAP_DOOR_OPEN
        else if t = MAP_DOOR_OPEN then MAP_ROOM else MAP_DOOR_CLOSED) ∧
      ∀ m1 : MapContainer, m1 = ms ∨ m1 = md →
        (∀ r k, ¬ (r = mc.cy ∧ k = mc.cx) → m1.tileAt r k = mc.tileAt r k) ∧
        m1.maps.map Prod.fst = mc.maps.map Prod.fst ∧
        (∀ k, k ≠ mc.curlevel → mapsGet m1.maps k = mapsGet mc.maps k) ∧
        (mapsGet m1.maps m1.curlevel).Level = (mapsGet mc.maps mc.curlevel).Level ∧
        (mapsGet m1.maps m1.curlevel).Height = (mapsGet mc.maps mc.curlevel).Height ∧
        (mapsGet m1.maps m1.curlevel).Width = (mapsGet mc.maps mc.curlevel).Width ∧
        m1.CursorPosition = mc.CursorPosition ∧ m1.drawMode = mc.drawMode ∧
        m1.curlevel = mc.curlevel ∧ m1.points = mc.points := by
  have hi := inv_of_reach hh hw hr
  obtain ⟨t, ht, _⟩ := hi.cursorTile
  obtain ⟨ms, es, is, ys, xs, ds, ts⟩ := hi.PlaceStairs t ht
  obtain ⟨md, ed, id, yd, xd, dd, td⟩ := hi.PlaceDoor t ht
  refine ⟨t, ms, md, ht, es, ed, ?_, ?_, ?_⟩
  · rw [cursorTile_eq_tileAt, ts, ys, xs]
    simp
  · rw [cursorTile_eq_tileAt, td, yd, xd]
    simp
  · intro m1 hm1
    rcases hm1 with e | e <;> subst e
    · obtain ⟨f1, f2, f3, f4, f5, f6, f7⟩ := hi.frame is
      refine ⟨fun r k hne => by rw [ts, if_neg hne], f3, f4, f5, f6, f7, ?_, ds, f2, f1⟩
      simp [MapContainer.CursorPosition, ys, xs]
    · obtain ⟨f1, f2, f3, f4, f5, f6, f7⟩ := hi.frame id
      refine ⟨fun r k hne => by rw [td, if_neg hne], f3, f4, f5, f6, f7, ?_, dd, f2, f1⟩
      simp [MapContainer.CursorPosition, yd, xd]

theorem C15_toggles_frame_witness :
    ∃ mc, reach 2 3 [Op.MoveCursor 1 1, Op.PlaceStairs, Op.MoveCursor 0 2, Op.PlaceDoor] =
        some mc ∧ mc.tileAt 1 1 = some MAP_STAIRS_DOWN ∧
      ∃ t ms md, mc.cursorTile = some t ∧ mc.PlaceStairs = some ms ∧ mc.PlaceDoor = some md ∧
        ms.cursorTile = some (if t = MAP_STAIRS_DOWN then MAP_STAIRS_UP
          else if t = MAP_STAIRS_UP then MAP_ROOM else MAP_STAIRS_DOWN) ∧
        md.cursorTile = some (if t = MAP_DOOR_CLOSED then MAP_DOOR_OPEN
          else if t = MAP_DOOR_OPEN then MAP_ROOM else MAP_DOOR_CLOSED) ∧
        ∀ m1 : MapContainer, m1 = ms ∨ m1 = md →
          (∀ r k, ¬ (r = mc.cy ∧ k = mc.cx) → m1.tileAt r k = mc.tileAt r k) ∧
          m1.maps.map Prod.fst = mc.maps.map Prod.fst ∧
          (∀ k, k ≠ mc.curlevel → mapsGet m1.maps k = mapsGet mc.maps k) ∧
          (mapsGet m1.maps m1.curlevel).Level = (mapsGet mc.maps mc.curlevel).Level ∧
          (mapsGet m1.maps m1.curlevel).Height = (mapsGet mc.maps mc.curlevel).Height ∧
          (mapsGet m1.maps m1.curlevel).Width = (mapsGet mc.maps mc.curlevel).Width ∧
          m1.CursorPosition = mc.CursorPosition ∧ m1.drawMode = mc.drawMode ∧
          m1.curlevel = mc.curlevel ∧ m1.points = mc.points :=
  ⟨_, rfl, rfl, C15_toggles_frame 2 3 (by decide) (by decide)
    [Op.MoveCursor 1 1, Op.PlaceStairs, Op.MoveCursor 0 2, Op.PlaceDoor] _ rfl⟩

/-- C16: on a new container of `h > 0` by `w > 0` and for two distinct cells
`p` and `q` of the grid, after `MoveCursor(p)`, `SetDrawMode` and
`MoveCursor(q)` the tile at `q` is `ROOM` and every other tile of the grid is
`NONE`, the tile at `p` among them: the toggle paints nothing, the move
paints the cell it arrives at. -/
theorem C16_paint_on_arrival (h w : Int) (hh : 0 < h) (hw : 0 < w) (py px qy qx : Int)
    (hp : 0 ≤ py ∧ py < h ∧ 0 ≤ px ∧ px < w) (hq : 0 ≤ qy ∧ qy < h ∧ 0 ≤ qx ∧ qx < w)
    (hne : ¬ (py = qy ∧ px = qx)) :
    ∃ m0 m1 m3, NewMapContainer h w = some m0 ∧ m0.MoveCursor py px = some (m1, py, px) ∧
      m1.SetDrawMode.MoveCursor qy qx = some (m3, qy, qx) ∧
      m1.SetDrawMode.tileAt py px = some MAP_NONE ∧
      m3.tileAt qy qx = some MAP_ROOM ∧ m3.tileAt py px = some MAP_NONE ∧
      ∀ r k, 0 ≤ r → r < h → 0 ≤ k → k < w → ¬ (r = qy ∧ k = qx) →
        m3.tileAt r k = some MAP_NONE := by
  obtain ⟨m0, e0, i0, _, _, d0, n0⟩ := inv_new h w hh hw
  obtain ⟨m1, e1, i1, _, _, d1, t1⟩ := i0.MoveCursor_in py px hp.1 hp.2.1 hp.2.2.1 hp.2.2.2
  have i2 : Inv h w m1.SetDrawMode := i1.SetDrawMode
  have d2 : m1.SetDrawMode.drawMode = true := by
    simp [MapContainer.SetDrawMode, d1, d0]
  obtain ⟨m3, e3, _, _, _, _, t3⟩ := i2.MoveCursor_in qy qx hq.1 hq.2.1 hq.2.2.1 hq.2.2.2
  have hnone : ∀ r k, 0 ≤ r → r < h → 0 ≤ k → k < w → m1.SetDrawMode.tileAt r k = some MAP_NONE := by
    intro r k r0 r1 k0 k1
    obtain ⟨t, ht, _⟩ := i0.tileAt r k r0 r1 k0 k1
    have : m1.SetDrawMode.tileAt r k = m0.tileAt r k := by
      rw [tileAt_congr m1.SetDrawMode m1 rfl rfl, t1]
      simp [d0]
    rw [this, ht, n0 r k t ht]
  have hother : ∀ r k, 0 ≤ r → r < h → 0 ≤ k → k < w → ¬ (r = qy ∧ k = qx) →
      m3.tileAt r k = some MAP_NONE := by
    intro r k r0 r1 k0 k1 hn
    rw [t3, if_neg (fun hc => hn hc.2)]
    exact hnone r k r0 r1 k0 k1
  refine ⟨m0, m1, m3, e0, e1, e3, hnone py px hp.1 hp.2.1 hp.2.2.1 hp.2.2.2, ?_,
    hother py px hp.1 hp.2.1 hp.2.2.1 hp.2.2.2 hne, hother⟩
  rw [t3]
  simp [d2]

theorem C16_paint_on_arrival_witness :
    ∃ m0 m1 m3, NewMapContainer 5 5 = some m0 ∧ m0.MoveCursor 2 2 = some (m1, 2, 2) ∧
      m1.SetDrawMode.MoveCursor 2 3 = some (m3, 2, 3) ∧
      m1.SetDrawMode.tileAt 2 2 = some MAP_NONE ∧
      m3.tileAt 2 3 = some MAP_ROOM ∧ m3.tileAt 2 2 = some MAP_NONE ∧
      ∀ r k, 0 ≤ r → r < 5 → 0 ≤ k → k < 5 → ¬ (r = 2 ∧ k = 3) →
        m3.tileAt r k = some MAP_NONE :=
  C16_paint_on_arrival 5 5 (by decide) (by decide) 2 2 2 3 (by decide) (by decide) (by decide)

/-! ## The file on disk -/

theorem levelCalls_data (mp : Map) :
    (levelCalls mp).flatMap WriteCall.data = writeLevel mp := by
  have hrows : ∀ g : List (List Byte),
      (g.flatMap rowCalls).flatMap WriteCall.data =
        g.flatMap (fun line => line ++ goBytes "\n") := by
    intro g
    induction g with
    | nil => rfl
    | cons row rest ih =>
      simp only [List.flatMap_cons, List.flatMap_append, ih, rowCalls, List.flatMap_nil,
        List.append_nil, List.append_assoc]
  simp only [levelCalls, writeLevel, List.flatMap_append, hrows, List.flatMap_cons,
    List.flatMap_nil, List.append_nil, List.append_assoc, List.cons_append, List.nil_append]

/-- The bytes of the write calls, in order, are the stream of `WriteToFile`. -/
theorem writeCalls_data (mc : MapContainer) :
    mc.writeCalls.flatMap WriteCall.data = mc.WriteToFile := by
  have hpts : ∀ pts : List (Int × List Byte),
      (pts.map pointCall).flatMap WriteCall.data = writePoints pts := by
    intro pts
    induction pts with
    | nil => rfl
    | cons p rest ih =>
      simp only [List.map_cons, List.flatMap_cons, ih, writePoints, pointCall]
  have hlv : ∀ ms : List Map,
      (ms.flatMap levelCalls).flatMap WriteCall.data = ms.flatMap writeLevel := by
    intro ms
    induction ms with
    | nil => rfl
    | cons m rest ih =>
      simp only [List.flatMap_cons, List.flatMap_append, ih, levelCalls_data]
  simp only [MapContainer.writeCalls, MapContainer.WriteToFile, List.flatMap_append, hpts, hlv,
    List.flatMap_cons, List.flatMap_nil, List.append_nil]

theorem performWrites_ok (calls : List WriteCall) :
    ∀ (i : Nat) (content : List Byte) (offset : Nat), offset ≤ content.length →
      performWrites calls (fun _ => false) i content offset =
        SaveOutcome.returned (content.take offset ++ calls.flatMap WriteCall.data ++
          content.drop (offset + (calls.flatMap WriteCall.data).length)) := by
  induction calls with
  | nil =>
    intro i content offset _
    simp [performWrites]
  | cons c cs ih =>
    intro i content offset hle
    have hlen : offset + c.data.length ≤ (writeAt content offset c.data).length := by
      simp only [writeAt, List.length_append, List.length_take, List.length_drop]
      omega
    simp only [performWrites, Bool.false_eq_true, if_false]
    rw [ih (i + 1) _ _ hlen]
    congr 1
    have htake : (writeAt content offset c.data).take (offset + c.data.length) =
        content.take offset ++ c.data := by
      have h1 : (content.take offset ++ c.data).length = offset + c.data.length := by
        simp only [List.length_append, List.length_take]
        omega
      unfold writeAt
      rw [← h1, List.take_left']
      rfl
    have hdrop : ∀ n, (writeAt content offset c.data).drop (offset + c.data.length + n) =
        content.drop (offset + c.data.length + n) := by
      intro n
      have h1 : (content.take offset ++ c.data).length = offset + c.data.length := by
        simp only [List.length_append, List.length_take]
        omega
      unfold writeAt
      rw [← h1, List.drop_append, List.drop_drop, h1]
    rw [htake, List.flatMap_cons, List.length_append, ← Nat.add_assoc, hdrop]
    simp only [List.append_assoc]

/-- A save with no failure leaves the written stream followed by what the
prior file held beyond the length of the stream. -/
theorem WriteToFileOn_ok (mc : MapContainer) (prior : Option (List Byte)) :
    mc.WriteToFileOn prior false (fun _ => false) =
      SaveOutcome.returned (mc.WriteToFile ++ (prior.getD []).drop mc.WriteToFile.length) := by
  simp only [MapContainer.WriteToFileOn, Bool.false_eq_true, if_false]
  rw [performWrites_ok _ 0 _ 0 (Nat.zero_le _), writeCalls_data]
  simp

/-- C17: the save of the container of `NewMapContainer(1, 1)` over a file that
holds the save of the container of `NewMapContainer(2, 3)`. The file is opened
without truncation, so it ends up as the new stream of 22 bytes followed by
the last 6 bytes of the prior file, and not as the new stream alone. -/
theorem C17_longer_file_keeps_tail :
    ∃ small big, reach 1 1 [] = some small ∧ reach 2 3 [] = some big ∧
      small.WriteToFile = goBytes "\nLevel 1\n1 Ã— 1\n \n\n" ∧
      big.WriteToFile = goBytes "\nLevel 1\n3 Ã— 2\n   \n   \n\n" ∧
      small.WriteToFileOn (some big.WriteToFile) false (fun _ => false) =
        SaveOutcome.returned (goBytes "\nLevel 1\n1 Ã— 1\n \n\n" ++ goBytes "\n   \n\n") ∧
      small.WriteToFileOn (some big.WriteToFile) false (fun _ => false) ≠
        SaveOutcome.returned small.WriteToFile :=
  ⟨_, _, rfl, rfl, by decide, by decide, by decide, by decide⟩

/-- C18: the save of the container of `NewMapContainer(2, 3)` to a new file when
one write call returns an error. The calls are the separator (number 0), the
two header lines (1, 2), the two rows with their line ends (3 to 6) and the
closing line end (7); none of their errors is tested, so for each of them the
save goes on with the calls that remain and returns. With the error at the
line `Level 1` the file is left without that line. A failure to open the file
and an error of the write of a point are fatal, as the claim says. -/
theorem C18_unchecked_write_failure :
    ∃ mc pt, reach 2 3 [] = some mc ∧ treasureContainer = some pt ∧
      mc.writeCalls.length = 8 ∧
      (∀ i, i < 8 → (mc.WriteToFileOn none false (fun j => j == i)).isFatal = false) ∧
      mc.WriteToFileOn none false (fun j => j == 1) =
        SaveOutcome.returned (goBytes "\n3 Ã— 2\n   \n   \n\n") ∧
      mc.WriteToFileOn none true (fun _ => false) = SaveOutcome.fatal none ∧
      pt.WriteToFileOn none false (fun j => j == 0) = SaveOutcome.fatal (some []) ∧
      (∀ i, i < 9 → 0 < i → (pt.WriteToFileOn none false (fun j => j == i)).isFatal = false) :=
  ⟨_, _, rfl, rfl, by decide, by decide, by decide, by decide, by decide, by decide⟩

/-! ## The loop of the session -/

theorem sessionStart_inv (rows cols : Int) (hr : 0 < rows - 6) (hc : 0 < cols - 2) :
    ∃ s, sessionStart rows cols = some s ∧ SInv (rows - 4 - 2) (cols - 2) s ∧
      s.mMoving = false ∧ s.moves = [] := by
  obtain ⟨m0, e0, i0, y0, x0, _⟩ := inv_new (rows - 4 - 2) (cols - 2) (by omega) hc
  obtain ⟨m1, e1, i1, _, y1, x1, _⟩ := i0.DrawMap
  refine ⟨{ m := m1, cy := m0.CursorPosition.1, cx := m0.CursorPosition.2, mMoving := false,
            moves := [] }, ?_, ⟨i1, y1.symm, x1.symm⟩, rfl, rfl⟩
  simp only [sessionStart, e0, e1]

theorem clampedTo_of_inv {h w : Int} {mc : MapContainer} (hi : Inv h w mc) (row col : Int) :
    mc.clampedTo row col =
      if 0 ≤ row ∧ row < h ∧ 0 ≤ col ∧ col < w then (row, col) else (mc.cy, mc.cx) := by
  obtain ⟨g, hm, _⟩ := hi.grid
  simp only [MapContainer.clampedTo, hm, hi.curlevel, mapsGet_single]

/-- The statement `cy, cx = m.MoveCursor(cy, cx)` returns, leaves the local
cursor equal to the cursor of the container, and the cursor at the cell asked
for when it is on the level, where it was otherwise. -/
theorem SInv.moveCursor {h w : Int} {s : Session} (hs : SInv h w s) (cy cx : Int) (mm : Bool) :
    ∃ s1, s.moveCursor cy cx mm = some s1 ∧ SInv h w s1 ∧ s1.mMoving = mm ∧
      s1.moves = s.moves ++ [(cy, cx)] ∧ s1.m.CursorPosition = s.m.clampedTo cy cx := by
  rw [clampedTo_of_inv hs.inv]
  by_cases hin : 0 ≤ cy ∧ cy < h ∧ 0 ≤ cx ∧ cx < w
  · obtain ⟨m1, e, i1, y1, x1, _⟩ :=
      hs.inv.MoveCursor_in cy cx hin.1 hin.2.1 hin.2.2.1 hin.2.2.2
    refine ⟨{ m := m1, cy := cy, cx := cx, mMoving := mm, moves := s.moves ++ [(cy, cx)] }, ?_,
      ⟨i1, y1.symm, x1.symm⟩, rfl, rfl, ?_⟩
    · simp only [Session.moveCursor, e]
    · simp only [MapContainer.CursorPosition, y1, x1, if_pos hin]
  · have hcond : cy < 0 ∨ cy ≥ s.m.height ∨ cx < 0 ∨ cx ≥ s.m.width := by
      rw [hs.inv.height, hs.inv.width]
      omega
    have e : s.m.MoveCursor cy cx = some (s.m, s.m.cy, s.m.cx) := by
      simp only [MapContainer.MoveCursor, hcond, if_true]
    refine ⟨{ m := s.m, cy := s.m.cy, cx := s.m.cx, mMoving := mm,
              moves := s.moves ++ [(cy, cx)] }, ?_, ⟨hs.inv, rfl, rfl⟩, rfl, rfl, ?_⟩
    · simp only [Session.moveCursor, e]
    · simp only [MapContainer.CursorPosition, if_neg hin]

theorem SInv.of_m {h w : Int} {s : Session} (hs : SInv h w s) (m1 : MapContainer)
    (hi : Inv h w m1) (hy : m1.cy = s.m.cy) (hx : m1.cx = s.m.cx) :
    SInv h w { s with m := m1 } :=
  ⟨hi, hs.cy.trans hy.symm, hs.cx.trans hx.symm⟩

theorem pressActive_nil : ¬ pressActive [] := by
  rintro ⟨pre, post, p, h, _⟩
  cases pre <;> simp at h

/-- A drag is on after one more report when the report is a press, or when it
is not a release and the drag was on before. -/
theorem pressActive_concat (evs : List MouseEvent) (e : MouseEvent) :
    pressActive (evs ++ [e]) ↔
      e.State = MouseState.M_B1_PRESSED ∨
        (e.State ≠ MouseState.M_B1_RELEASED ∧ pressActive evs) := by
  constructor
  · rintro ⟨pre, post, p, heq, hp, hpost⟩
    rcases List.eq_nil_or_concat post with hnil | ⟨post1, last, hlast⟩
    · subst hnil
      have h2 : evs ++ [e] = pre ++ [p] := heq
      have := List.append_inj' h2 rfl
      have hpe : e = p := by simpa using this.2
      exact Or.inl (hpe ▸ hp)
    · subst hlast
      have h2 : evs ++ [e] = (pre ++ p :: post1) ++ [last] := by
        rw [heq]
        simp
      have := List.append_inj' h2 rfl
      have he : e = last := by simpa using this.2
      refine Or.inr ⟨?_, pre, post1, p, this.1, hp, ?_⟩
      · rw [he]
        exact hpost last (by simp)
      · intro x hx
        exact hpost x (by simp [hx])
  · rintro (hp | ⟨hne, pre, post, p, heq, hp, hpost⟩)
    · exact ⟨evs, [], e, rfl, hp, by simp⟩
    · refine ⟨pre, post ++ [e], p, by rw [heq]; simp, hp, ?_⟩
      intro x hx
      rcases List.mem_append.1 hx with h1 | h1
      · exact hpost x h1
      · have : x = e := by simpa using h1
        rw [this]
        exact hne

/-- One mouse report in the loop: `mMoving` follows the drag, and a call of
`MoveCursor(Y-3, X-1)` is made when `mMoving` is set after the two tests. -/
theorem SInv.mouse {h w : Int} {s : Session} (hs : SInv h w s) (e : MouseEvent) :
    ∃ s1, sessionStep s (Key.KEY_MOUSE (some e)) = some s1 ∧ SInv h w s1 ∧
      (s1.mMoving = true ↔ e.State = MouseState.M_B1_PRESSED ∨
        (e.State ≠ MouseState.M_B1_RELEASED ∧ s.mMoving = true)) ∧
      (s1.mMoving = true → s1.moves = s.moves ++ [(e.Y - 3, e.X - 1)]) ∧
      (s1.mMoving = false → s1.moves = s.moves) := by
  have h3 : e.Y - 2 - 1 = e.Y - 3 := by omega
  cases hst : e.State with
  | M_B1_PRESSED =>
    obtain ⟨s1, e1, i1, m1, v1, _⟩ := hs.moveCursor (e.Y - 2 - 1) (e.X - 1) true
    refine ⟨s1, ?_, i1, by simp [m1], fun _ => by rw [v1, h3], fun hf => ?_⟩
    · simp only [sessionStep, hst]
      simpa using e1
    · rw [m1] at hf
      cases hf
  | M_B1_RELEASED =>
    refine ⟨{ s with mMoving := false }, ?_, ⟨hs.inv, hs.cy, hs.cx⟩, by simp, fun hf => ?_,
      fun _ => rfl⟩
    · simp only [sessionStep, hst]
      cases s.mMoving <;> simp
    · cases hf
  | other =>
    cases hmm : s.mMoving with
    | false =>
      refine ⟨{ s with mMoving := false }, ?_, ⟨hs.inv, hs.cy, hs.cx⟩, by simp,
        fun hf => ?_, fun _ => rfl⟩
      · simp only [sessionStep, hst, hmm]
        simp
      · cases hf
    | true =>
      obtain ⟨s1, e1, i1, m1, v1, _⟩ := hs.moveCursor (e.Y - 2 - 1) (e.X - 1) true
      refine ⟨s1, ?_, i1, by simp [m1], fun _ => by rw [v1, h3], fun hf => ?_⟩
      · simp only [sessionStep, hst, hmm]
        simpa using e1
      · rw [m1] at hf
        cases hf

theorem pointerEvents_cons (k : Key) (ks : List Key) :
    pointerEvents (k :: ks) = pointerEvents [k] ++ pointerEvents ks := by
  cases k with
  | KEY_MOUSE md =>
    cases md with
    | none => rfl
    | some e => rfl
  | _ => rfl

/-- Every round of the loop returns, keeps the local cursor equal to the cursor
of the container, and leaves `mMoving` set exactly when a drag is on. -/
theorem SInv.of_key {h w : Int} {s : Session} (hs : SInv h w s) (pre : List MouseEvent)
    (htr : s.mMoving = true ↔ pressActive pre) (k : Key) :
    ∃ s1, sessionStep s k = some s1 ∧ SInv h w s1 ∧
      (s1.mMoving = true ↔ pressActive (pre ++ pointerEvents [k])) := by
  have hsame : s.mMoving = true ↔ pressActive (pre ++ []) := by simpa using htr
  cases k with
  | q => exact ⟨s, rfl, hs, hsame⟩
  | s => exact ⟨s, rfl, hs, hsame⟩
  | r => exact ⟨_, rfl, hs.of_m _ hs.inv.SetDrawMode rfl rfl, hsame⟩
  | t =>
    obtain ⟨tl, ht, _⟩ := hs.inv.cursorTile
    obtain ⟨m1, e1, i1, y1, x1, _⟩ := hs.inv.PlaceStairs tl ht
    exact ⟨{ s with m := m1 }, by simp [sessionStep, e1], hs.of_m m1 i1 y1 x1, hsame⟩
  | d =>
    obtain ⟨tl, ht, _⟩ := hs.inv.cursorTile
    obtain ⟨m1, e1, i1, y1, x1, _⟩ := hs.inv.PlaceDoor tl ht
    exact ⟨{ s with m := m1 }, by simp [sessionStep, e1], hs.of_m m1 i1 y1 x1, hsame⟩
  | KEY_UP =>
    obtain ⟨s1, e1, i1, m1, _⟩ := hs.moveCursor (s.cy - 1) s.cx s.mMoving
    exact ⟨s1, e1, i1, by rw [m1]; exact hsame⟩
  | KEY_DOWN =>
    obtain ⟨s1, e1, i1, m1, _⟩ := hs.moveCursor (s.cy + 1) s.cx s.mMoving
    exact ⟨s1, e1, i1, by rw [m1]; exact hsame⟩
  | KEY_LEFT =>
    obtain ⟨s1, e1, i1, m1, _⟩ := hs.moveCursor s.cy (s.cx - 1) s.mMoving
    exact ⟨s1, e1, i1, by rw [m1]; exact hsame⟩
  | KEY_RIGHT =>
    obtain ⟨s1, e1, i1, m1, _⟩ := hs.moveCursor s.cy (s.cx + 1) s.mMoving
    exact ⟨s1, e1, i1, by rw [m1]; exact hsame⟩
  | KEY_MOUSE md =>
    cases md with
    | none => exact ⟨s, rfl, hs, hsame⟩
    | some e =>
      obtain ⟨s1, e1, i1, m1, _⟩ := hs.mouse e
      refine ⟨s1, e1, i1, ?_⟩
      rw [m1, htr]
      exact (pressActive_concat pre e).symm
  | other => exact ⟨s, rfl, hs, hsame⟩

theorem SInv.of_keys {h w : Int} (keys : List Key) :
    ∀ (s : Session) (pre : List MouseEvent), Key.q ∉ keys → SInv h w s →
      (s.mMoving = true ↔ pressActive pre) →
      ∃ s1, sessionRun s keys = some s1 ∧ SInv h w s1 ∧
        (s1.mMoving = true ↔ pressActive (pre ++ pointerEvents keys)) := by
  induction keys with
  | nil =>
    intro s pre _ hs htr
    exact ⟨s, rfl, hs, by simpa [pointerEvents] using htr⟩
  | cons k ks ih =>
    intro s pre hq hs htr
    have hk : k ≠ Key.q := fun e => hq (by simp [e])
    have hks : Key.q ∉ ks := fun e => hq (List.mem_cons_of_mem _ e)
    obtain ⟨s1, e1, i1, t1⟩ := hs.of_key pre htr k
    obtain ⟨s2, e2, i2, t2⟩ := ih s1 (pre ++ pointerEvents [k]) hks i1 t1
    refine ⟨s2, ?_, i2, ?_⟩
    · simp only [sessionRun, hk, if_false, e1, Option.some_bind, e2]
    · rw [pointerEvents_cons, ← List.append_assoc]
      exact t2

/-- The loop on a screen that leaves a grid of at least one cell never panics,
whatever keys it reads before the first `q`. -/
theorem session_inv (rows cols : Int) (hr : 0 < rows - 6) (hc : 0 < cols - 2)
    (keys : List Key) (hq : Key.q ∉ keys) :
    ∃ s, session rows cols keys = some s ∧ SInv (rows - 4 - 2) (cols - 2) s ∧
      (s.mMoving = true ↔ pressActive (pointerEvents keys)) := by
  obtain ⟨s0, e0, i0, m0, _⟩ := sessionStart_inv rows cols hr hc
  have htr : s0.mMoving = true ↔ pressActive [] := by
    rw [m0]
    exact ⟨fun hf => Bool.noConfusion hf, fun hp => absurd hp pressActive_nil⟩
  obtain ⟨s1, e1, i1, t1⟩ := SInv.of_keys keys s0 [] hq i0 htr
  exact ⟨s1, by simp only [session, e0, Option.some_bind, e1], i1, by simpa using t1⟩

/-- C19: in the loop of `main` on a screen that leaves a grid of at least one
cell, after any keys the local `(cy, cx)` is the cursor of the container, and
an arrow key then leaves the cursor one cell up, down, left or right of where
it was when that cell is on the current level, and where it was otherwise,
with the local `(cy, cx)` again equal to it. -/
theorem C19_arrow_keys (rows cols : Int) (hr : 0 < rows - 6) (hc : 0 < cols - 2)
    (keys : List Key) (hq : Key.q ∉ keys) :
    ∃ s, session rows cols keys = some s ∧ (s.cy, s.cx) = s.m.CursorPosition ∧
      ∀ k dy dx, (k, dy, dx) ∈ [(Key.KEY_UP, (-1 : Int), (0 : Int)), (Key.KEY_DOWN, 1, 0),
          (Key.KEY_LEFT, 0, -1), (Key.KEY_RIGHT, 0, 1)] →
        ∃ s1, sessionStep s k = some s1 ∧
          s1.m.CursorPosition = s.m.clampedTo (s.m.cy + dy) (s.m.cx + dx) ∧
          (s1.cy, s1.cx) = s1.m.CursorPosition := by
  obtain ⟨s, e, hs, _⟩ := session_inv rows cols hr hc keys hq
  refine ⟨s, e, by simp [MapContainer.CursorPosition, hs.cy, hs.cx], ?_⟩
  intro k dy dx hmem
  simp only [List.mem_cons, Prod.mk.injEq, List.mem_singleton, List.not_mem_nil, or_false] at hmem
  rcases hmem with ⟨hk, hy, hx⟩ | ⟨hk, hy, hx⟩ | ⟨hk, hy, hx⟩ | ⟨hk, hy, hx⟩ <;>
    subst hk <;> subst hy <;> subst hx
  · obtain ⟨s1, e1, i1, _, _, c1⟩ := hs.moveCursor (s.cy - 1) s.cx s.mMoving
    refine ⟨s1, e1, ?_, by simp [MapContainer.CursorPosition, i1.cy, i1.cx]⟩
    rw [c1, hs.cy, hs.cx]
    simp [Int.sub_eq_add_neg]
  · obtain ⟨s1, e1, i1, _, _, c1⟩ := hs.moveCursor (s.cy + 1) s.cx s.mMoving
    refine ⟨s1, e1, ?_, by simp [MapContainer.CursorPosition, i1.cy, i1.cx]⟩
    rw [c1, hs.cy, hs.cx]
    simp
  · obtain ⟨s1, e1, i1, _, _, c1⟩ := hs.moveCursor s.cy (s.cx - 1) s.mMoving
    refine ⟨s1, e1, ?_, by simp [MapContainer.CursorPosition, i1.cy, i1.cx]⟩
    rw [c1, hs.cy, hs.cx]
    simp [Int.sub_eq_add_neg]
  · obtain ⟨s1, e1, i1, _, _, c1⟩ := hs.moveCursor s.cy (s.cx + 1) s.mMoving
    refine ⟨s1, e1, ?_, by simp [MapContainer.CursorPosition, i1.cy, i1.cx]⟩
    rw [c1, hs.cy, hs.cx]
    simp

theorem C19_arrow_keys_witness :
    ∃ s, session 8 5 [Key.KEY_DOWN, Key.KEY_DOWN, Key.KEY_RIGHT, Key.KEY_UP] = some s ∧
      s.m.CursorPosition = (0, 1) ∧ (s.cy, s.cx) = (0, 1) ∧
      ∃ s1, sessionStep s Key.KEY_UP = some s1 ∧ s1.m.CursorPosition = (0, 1) ∧
        (s1.cy, s1.cx) = (0, 1) := by
  obtain ⟨s, e, hloc, hall⟩ := C19_arrow_keys 8 5 (by decide) (by decide)
    [Key.KEY_DOWN, Key.KEY_DOWN, Key.KEY_RIGHT, Key.KEY_UP] (by decide)
  have e2 : session 8 5 [Key.KEY_DOWN, Key.KEY_DOWN, Key.KEY_RIGHT, Key.KEY_UP] = some _ := rfl
  have hs := Option.some.inj (e.symm.trans e2)
  obtain ⟨s1, h1, h2, h3⟩ := hall Key.KEY_UP (-1) 0 (by simp)
  subst hs
  exact ⟨_, rfl, rfl, rfl, s1, h1, h2.trans (by decide), h3.trans (h2.trans (by decide))⟩

/-- The round of the loop for a mouse report, by the value of `mMoving` after
the two tests of the state of the report. -/
theorem sessionStep_mouse_eq (s : Session) (e : MouseEvent) :
    sessionStep s (Key.KEY_MOUSE (some e)) =
      if e.State = MouseState.M_B1_PRESSED ∨
          (e.State ≠ MouseState.M_B1_RELEASED ∧ s.mMoving = true) then
        s.moveCursor (e.Y - 3) (e.X - 1) true
      else some { s with mMoving := false } := by
  have h3 : e.Y - 2 - 1 = e.Y - 3 := by omega
  cases hst : e.State <;> cases hmm : s.mMoving <;> simp [sessionStep, hst, hmm, h3]

/-- The statement `cy, cx = m.MoveCursor(cy, cx)` of the loop is one call of
`MoveCursor` on the container, whose three results become `m`, `cy`, `cx`. -/
theorem moveCursor_call (s s1 : Session) (cy cx : Int) (mm : Bool)
    (h : s.moveCursor cy cx mm = some s1) :
    ∃ m1 r c, s.m.MoveCursor cy cx = some (m1, r, c) ∧ s1.m = m1 ∧ s1.cy = r ∧ s1.cx = c ∧
      s1.mMoving = mm ∧ s1.moves = s.moves ++ [(cy, cx)] := by
  unfold Session.moveCursor at h
  cases hres : s.m.MoveCursor cy cx with
  | none => simp [hres] at h
  | some res =>
    obtain ⟨m1, r, c⟩ := res
    simp only [hres, Option.some.injEq] at h
    subst h
    exact ⟨m1, r, c, rfl, rfl, rfl, rfl, rfl, rfl⟩

/-- One mouse report in the loop, with the call that it makes on the container:
when `mMoving` is set after the two tests, the round is the call
`MoveCursor(Y-3, X-1)`; when it is not, the container and the local cursor are
left as they are. -/
theorem SInv.mouse_call {h w : Int} {s : Session} (hs : SInv h w s) (e : MouseEvent) :
    ∃ s1, sessionStep s (Key.KEY_MOUSE (some e)) = some s1 ∧
      (s1.mMoving = true ↔ e.State = MouseState.M_B1_PRESSED ∨
        (e.State ≠ MouseState.M_B1_RELEASED ∧ s.mMoving = true)) ∧
      (s1.mMoving = true →
        (∃ m1 r c, s.m.MoveCursor (e.Y - 3) (e.X - 1) = some (m1, r, c) ∧
          s1.m = m1 ∧ s1.cy = r ∧ s1.cx = c) ∧
        s1.m.CursorPosition = s.m.clampedTo (e.Y - 3) (e.X - 1) ∧
        s1.moves = s.moves ++ [(e.Y - 3, e.X - 1)]) ∧
      (s1.mMoving = false →
        s1.m = s.m ∧ s1.cy = s.cy ∧ s1.cx = s.cx ∧ s1.moves = s.moves) := by
  have hstep := sessionStep_mouse_eq s e
  by_cases hA : e.State = MouseState.M_B1_PRESSED ∨
      (e.State ≠ MouseState.M_B1_RELEASED ∧ s.mMoving = true)
  · rw [if_pos hA] at hstep
    obtain ⟨s1, e1, _, m1, _, c1⟩ := hs.moveCursor (e.Y - 3) (e.X - 1) true
    obtain ⟨mc1, r, c, hcall, hm, hy, hx, _, hmv⟩ := moveCursor_call s s1 _ _ _ e1
    refine ⟨s1, hstep.trans e1, ?_, fun _ => ⟨⟨mc1, r, c, hcall, hm, hy, hx⟩, c1, hmv⟩, ?_⟩
    · simp [m1, hA]
    · intro hf
      rw [m1] at hf
      exact Bool.noConfusion hf
  · rw [if_neg hA] at hstep
    refine ⟨{ s with mMoving := false }, hstep, ?_, fun hf => Bool.noConfusion hf,
      fun _ => ⟨rfl, rfl, rfl, rfl⟩⟩
    simp [hA]

/-- C20: in the loop of `main` on a screen that leaves a grid of at least one
cell, a mouse report `e` that follows any keys makes the loop call
`MoveCursor(e.Y - 3, e.X - 1)` on the container exactly when, among the mouse
reports up to and with `e`, there is a press with no release after it: then
the container and the local cursor after the round are the three results of
that call, and the call is added to the list of the calls made; otherwise no
call of `MoveCursor` is made, and the container (its window too), the local
cursor and the list of the calls are as before. So a press and every report
of a drag that is on make the call, a release ends the drag and makes none,
and a report before the first press or after a release makes none. -/
theorem C20_pointer_drag (rows cols : Int) (hr : 0 < rows - 6) (hc : 0 < cols - 2)
    (keys : List Key) (hq : Key.q ∉ keys) (e : MouseEvent) :
    ∃ s s1, session rows cols keys = some s ∧
      sessionStep s (Key.KEY_MOUSE (some e)) = some s1 ∧
      (pressActive (pointerEvents keys ++ [e]) →
        (∃ m1 r c, s.m.MoveCursor (e.Y - 3) (e.X - 1) = some (m1, r, c) ∧
          s1.m = m1 ∧ s1.cy = r ∧ s1.cx = c) ∧
        s1.m.CursorPosition = s.m.clampedTo (e.Y - 3) (e.X - 1) ∧
        (s1.cy, s1.cx) = s1.m.CursorPosition ∧
        s1.moves = s.moves ++ [(e.Y - 3, e.X - 1)]) ∧
      (¬ pressActive (pointerEvents keys ++ [e]) →
        s1.m = s.m ∧ s1.cy = s.cy ∧ s1.cx = s.cx ∧ s1.moves = s.moves) ∧
      (s1.mMoving = true ↔ pressActive (pointerEvents keys ++ [e])) ∧
      (e.State = MouseState.M_B1_PRESSED →
        (∃ m1 r c, s.m.MoveCursor (e.Y - 3) (e.X - 1) = some (m1, r, c) ∧
          s1.m = m1 ∧ s1.cy = r ∧ s1.cx = c) ∧
        s1.moves = s.moves ++ [(e.Y - 3, e.X - 1)]) ∧
      (e.State = MouseState.M_B1_RELEASED →
        s1.mMoving = false ∧ s1.m = s.m ∧ s1.moves = s.moves) ∧
      (¬ pressActive (pointerEvents keys) → e.State ≠ MouseState.M_B1_PRESSED →
        s1.m = s.m ∧ s1.moves = s.moves) := by
  obtain ⟨s, es, hs, htr⟩ := session_inv rows cols hr hc keys hq
  obtain ⟨s1, e1, m1, von, voff⟩ := hs.mouse_call e
  have hloc : ∀ s2, sessionStep s (Key.KEY_MOUSE (some e)) = some s2 →
      (s2.cy, s2.cx) = s2.m.CursorPosition := by
    intro s2 h2
    obtain ⟨s3, e3, i3, _⟩ := hs.of_key (pointerEvents keys) htr (Key.KEY_MOUSE (some e))
    have : s3 = s2 := Option.some.inj (e3.symm.trans h2)
    subst this
    simp [MapContainer.CursorPosition, i3.cy, i3.cx]
  have hiff : s1.mMoving = true ↔ pressActive (pointerEvents keys ++ [e]) := by
    rw [m1, htr]
    exact (pressActive_concat _ e).symm
  have hfalse : ¬ pressActive (pointerEvents keys ++ [e]) → s1.mMoving = false := by
    intro hn
    cases hmm : s1.mMoving with
    | false => rfl
    | true => exact absurd (hiff.1 hmm) hn
  refine ⟨s, s1, es, e1, ?_, fun hn => voff (hfalse hn), hiff, ?_, ?_, ?_⟩
  · intro hp
    obtain ⟨hcall, hcur, hmv⟩ := von (hiff.2 hp)
    exact ⟨hcall, hcur, hloc s1 e1, hmv⟩
  · intro hp
    obtain ⟨hcall, _, hmv⟩ := von (m1.2 (Or.inl hp))
    exact ⟨hcall, hmv⟩
  · intro hrel
    have hn : ¬ pressActive (pointerEvents keys ++ [e]) := by
      rw [pressActive_concat]
      simp [hrel]
    obtain ⟨h1, _, _, h4⟩ := voff (hfalse hn)
    exact ⟨hfalse hn, h1, h4⟩
  · intro hn hnp
    have hn2 : ¬ pressActive (pointerEvents keys ++ [e]) := by
      rw [pressActive_concat]
      rintro (h1 | ⟨_, h2⟩)
      · exact hnp h1
      · exact hn h2
    obtain ⟨h1, _, _, h4⟩ := voff (hfalse hn2)
    exact ⟨h1, h4⟩

theorem C20_pointer_drag_witness :
    ∃ s s1, session 8 5 [Key.KEY_MOUSE (some ⟨MouseState.other, 2, 4⟩),
        Key.KEY_MOUSE (some ⟨MouseState.M_B1_PRESSED, 3, 4⟩)] = some s ∧
      sessionStep s (Key.KEY_MOUSE (some ⟨MouseState.other, 2, 4⟩)) = some s1 ∧
      s.moves = [(1, 2)] ∧ s.m.CursorPosition = (1, 2) ∧ redrawCount s.m.win = 2 ∧
      (∃ m1 r c, s.m.MoveCursor 1 1 = some (m1, r, c) ∧ s1.m = m1 ∧ s1.cy = r ∧ s1.cx = c) ∧
      s1.m.CursorPosition = (1, 1) ∧ (s1.cy, s1.cx) = (1, 1) ∧
      s1.moves = [(1, 2), (1, 1)] := by
  obtain ⟨s, s1, es, e1, hon, _⟩ := C20_pointer_drag 8 5 (by decide) (by decide)
    [Key.KEY_MOUSE (some ⟨MouseState.other, 2, 4⟩),
      Key.KEY_MOUSE (some ⟨MouseState.M_B1_PRESSED, 3, 4⟩)] (by decide)
    ⟨MouseState.other, 2, 4⟩
  have hp : pressActive (pointerEvents [Key.KEY_MOUSE (some ⟨MouseState.other, 2, 4⟩),
      Key.KEY_MOUSE (some ⟨MouseState.M_B1_PRESSED, 3, 4⟩)] ++ [⟨MouseState.other, 2, 4⟩]) :=
    ⟨[⟨MouseState.other, 2, 4⟩], [⟨MouseState.other, 2, 4⟩], ⟨MouseState.M_B1_PRESSED, 3, 4⟩,
      rfl, rfl, by decide⟩
  have e2 : session 8 5 [Key.KEY_MOUSE (some ⟨MouseState.other, 2, 4⟩),
      Key.KEY_MOUSE (some ⟨MouseState.M_B1_PRESSED, 3, 4⟩)] = some _ := rfl
  have hs := Option.some.inj (es.symm.trans e2)
  obtain ⟨hcall, hcur, hloc, hmv⟩ := hon hp
  subst hs
  exact ⟨_, s1, rfl, e1, rfl, rfl, rfl, hcall, hcur.trans (by decide),
    hloc.trans (hcur.trans (by decide)), hmv⟩

end KeepDrawing
